import Mathlib

set_option maxHeartbeats 1000000

/-!
Verification of the rusk key-value store engine (src/engine.rs, src/error.rs).

Byte-level shallow embedding: the on-disk log file is a `List Nat` of byte
values.  Each entry is framed as `[4 bytes big-endian length][payload]`
(engine.rs line 28).  The serde_json payload encoding of `Command` is modelled
by an executable encoder (`payloadBytes`) producing the exact canonical bytes
serde_json writes for this enum, together with an executable decoder
(`parseCommand`) that accepts exactly those canonical byte strings and rejects
everything else, mirroring `serde_json::from_slice`'s behaviour on the byte
strings this program ever produces or truncates (serde_json also rejects any
strict prefix of a canonical encoding, and rejects the empty slice).

The `HashMap` index is modelled as an association list with insert-in-place /
append-if-new semantics, a deterministic refinement of HashMap's unspecified
iteration order.  The store's `BufWriter` is flushed before every operation
returns (engine.rs line 201), so the modelled `file` is both the buffered and
the on-disk content at every observation point.
-/

/-- Error kinds of `RuskError` (src/error.rs).  The payloads of the `Io` and
`Serde` variants (an `io::Error` / `serde_json::Error`) carry no information
used by the engine, so only the kind is modelled. -/
inductive RuskError where
  | ioError
  | serdeError
  | keyNotFound
  | unexpectedCommand
deriving DecidableEq

instance {ε α : Type} [DecidableEq ε] [DecidableEq α] : DecidableEq (Except ε α) :=
  fun a b =>
    match a, b with
    | .ok x, .ok y =>
      if h : x = y then .isTrue (by rw [h]) else .isFalse (by intro hh; cases hh; exact h rfl)
    | .ok _, .error _ => .isFalse (by intro hh; cases hh)
    | .error _, .ok _ => .isFalse (by intro hh; cases hh)
    | .error e, .error f =>
      if h : e = f then .isTrue (by rw [h]) else .isFalse (by intro hh; cases hh; exact h rfl)

/-- The `Command` enum from src/engine.rs lines 13-17. -/
inductive Command where
  | set (key value : String)
  | remove (key : String)
deriving DecidableEq

/-- `CommandPos` from src/engine.rs lines 19-23. -/
structure CommandPos where
  offset : Nat
  length : Nat
deriving DecidableEq

/-! ### Association-list model of `HashMap` -/

/-- `HashMap::get`. -/
def alookup {α : Type} : List (String × α) → String → Option α
  | [], _ => none
  | (k, v) :: rest, key => if key = k then some v else alookup rest key

/-- `HashMap::insert`: replace in place if the key is present, else append. -/
def ainsert {α : Type} : List (String × α) → String → α → List (String × α)
  | [], key, v => [(key, v)]
  | (k, w) :: rest, key, v =>
    if key = k then (key, v) :: rest else (k, w) :: ainsert rest key v

/-- `HashMap::remove` (dropping the sole occurrence of the key). -/
def aerase {α : Type} : List (String × α) → String → List (String × α)
  | [], _ => []
  | (k, w) :: rest, key => if key = k then rest else (k, w) :: aerase rest key

/-! ### The serde_json payload encoding -/

/-- Lowercase hex digit, as in serde_json's escape table. -/
def hexDigit (n : Nat) : Nat := if n < 10 then 48 + n else 87 + n

/-- UTF-8 encoding of one scalar value (`String` bytes in Rust are UTF-8). -/
def utf8Bytes (c : Char) : List Nat :=
  let n := c.toNat
  if n < 128 then [n]
  else if n < 2048 then [192 + n / 64, 128 + n % 64]
  else if n < 65536 then [224 + n / 4096, 128 + n / 64 % 64, 128 + n % 64]
  else [240 + n / 262144, 128 + n / 4096 % 64, 128 + n / 64 % 64, 128 + n % 64]

/-- serde_json's escaping of one character inside a JSON string: `"` and `\`
get two-byte escapes, the control characters 8, 9, 10, 12, 13 get their short
escapes, other control characters get `\u00xx`, everything else is emitted as
its raw UTF-8 bytes. -/
def escChar (c : Char) : List Nat :=
  if c = '"' then [92, 34]
  else if c = '\\' then [92, 92]
  else if c.toNat = 8 then [92, 98]
  else if c.toNat = 9 then [92, 116]
  else if c.toNat = 10 then [92, 110]
  else if c.toNat = 12 then [92, 102]
  else if c.toNat = 13 then [92, 114]
  else if c.toNat < 32 then [92, 117, 48, 48, hexDigit (c.toNat / 16), hexDigit (c.toNat % 16)]
  else utf8Bytes c

def escList : List Char → List Nat
  | [] => []
  | c :: cs => escChar c ++ escList cs

/-- A JSON string literal: quote, escaped content, quote. -/
def jstr (s : String) : List Nat := 34 :: (escList s.data ++ [34])

/-- ASCII bytes of `{"Set":{"key":` — the 14 bytes serde_json writes before
the key string of a Set command. -/
def setKeyHead : List Nat := [123, 34, 83, 101, 116, 34, 58, 123, 34, 107, 101, 121, 34, 58]

/-- ASCII bytes of `,"value":`. -/
def valueHead : List Nat := [44, 34, 118, 97, 108, 117, 101, 34, 58]

/-- ASCII bytes of `{"Remove":{"key":`. -/
def removeKeyHead : List Nat :=
  [123, 34, 82, 101, 109, 111, 118, 101, 34, 58, 123, 34, 107, 101, 121, 34, 58]

/-- ASCII bytes of the two closing braces. -/
def closeBB : List Nat := [125, 125]

/-- The bytes `serde_json::to_vec` produces for a `Command`
(externally tagged enum with struct variants). -/
def payloadBytes : Command → List Nat
  | .set k v => setKeyHead ++ jstr k ++ valueHead ++ jstr v ++ closeBB
  | .remove k => removeKeyHead ++ jstr k ++ closeBB

/-! ### The decoder (model of `serde_json::from_slice::<Command>`) -/

def parseHexDigit (b : Nat) : Option Nat :=
  if 48 ≤ b ∧ b ≤ 57 then some (b - 48)
  else if 97 ≤ b ∧ b ≤ 102 then some (b - 87)
  else if 65 ≤ b ∧ b ≤ 70 then some (b - 55)
  else none

/-- The single-character JSON escapes accepted after a backslash. -/
def escCode (b : Nat) : Option Char :=
  if b = 34 then some '"'
  else if b = 92 then some '\\'
  else if b = 47 then some '/'
  else if b = 98 then some (Char.ofNat 8)
  else if b = 116 then some (Char.ofNat 9)
  else if b = 110 then some (Char.ofNat 10)
  else if b = 102 then some (Char.ofNat 12)
  else if b = 114 then some (Char.ofNat 13)
  else none

/-- Parse the body of a JSON string (the opening quote already consumed) up to
and including the closing quote, returning the decoded characters and the
remaining bytes.  Rejects raw control bytes and malformed UTF-8, as
serde_json does. -/
def parseJStrF : Nat → List Nat → Option (List Char × List Nat)
  | 0, _ => none
  | _ + 1, [] => none
  | fuel + 1, b :: rest =>
    if b = 34 then some ([], rest)
    else if b = 92 then
      match rest with
      | [] => none
      | e :: rest2 =>
        if e = 117 then
          match rest2 with
          | h1 :: h2 :: h3 :: h4 :: rest3 =>
            match parseHexDigit h1, parseHexDigit h2, parseHexDigit h3, parseHexDigit h4 with
            | some d1, some d2, some d3, some d4 =>
              let n := ((d1 * 16 + d2) * 16 + d3) * 16 + d4
              if n < 55296 ∨ 57343 < n then
                match parseJStrF fuel rest3 with
                | some (cs, r) => some (Char.ofNat n :: cs, r)
                | none => none
              else none
            | _, _, _, _ => none
          | _ => none
        else
          match escCode e with
          | some ch =>
            match parseJStrF fuel rest2 with
            | some (cs, r) => some (ch :: cs, r)
            | none => none
          | none => none
    else if b < 32 then none
    else if b < 128 then
      match parseJStrF fuel rest with
      | some (cs, r) => some (Char.ofNat b :: cs, r)
      | none => none
    else if 194 ≤ b ∧ b ≤ 223 then
      match rest with
      | [] => none
      | b1 :: rest2 =>
        if 128 ≤ b1 ∧ b1 ≤ 191 then
          match parseJStrF fuel rest2 with
          | some (cs, r) => some (Char.ofNat ((b - 192) * 64 + (b1 - 128)) :: cs, r)
          | none => none
        else none
    else if 224 ≤ b ∧ b ≤ 239 then
      match rest with
      | b1 :: b2 :: rest2 =>
        if (128 ≤ b1 ∧ b1 ≤ 191) ∧ (128 ≤ b2 ∧ b2 ≤ 191) then
          let n := (b - 224) * 4096 + (b1 - 128) * 64 + (b2 - 128)
          if 2048 ≤ n ∧ (n < 55296 ∨ 57343 < n) then
            match parseJStrF fuel rest2 with
            | some (cs, r) => some (Char.ofNat n :: cs, r)
            | none => none
          else none
        else none
      | _ => none
    else if 240 ≤ b ∧ b ≤ 244 then
      match rest with
      | b1 :: b2 :: b3 :: rest2 =>
        if (128 ≤ b1 ∧ b1 ≤ 191) ∧ (128 ≤ b2 ∧ b2 ≤ 191) ∧ (128 ≤ b3 ∧ b3 ≤ 191) then
          let n := (b - 240) * 262144 + (b1 - 128) * 4096 + (b2 - 128) * 64 + (b3 - 128)
          if 65536 ≤ n ∧ n < 1114112 then
            match parseJStrF fuel rest2 with
            | some (cs, r) => some (Char.ofNat n :: cs, r)
            | none => none
          else none
        else none
      | _ => none
    else none

/-- Parse the body of a JSON string (the opening quote already consumed) up to
and including the closing quote.  Every step consumes at least one byte, so
fuel equal to the byte count never runs out; the fuel only bounds the
iteration count of the otherwise byte-consuming loop. -/
def parseJStr (l : List Nat) : Option (List Char × List Nat) := parseJStrF l.length l

/-- Parse a complete JSON string literal (expects the opening quote). -/
def parseJString (l : List Nat) : Option (String × List Nat) :=
  match l with
  | 34 :: rest =>
    match parseJStr rest with
    | some (cs, r) => some (String.mk cs, r)
    | none => none
  | _ => none

/-- Decode a `Command` from payload bytes, demanding the canonical serde_json
shape and full consumption of the slice (`from_slice` rejects trailing data). -/
def parseCommand (l : List Nat) : Option Command :=
  if l.take 14 = setKeyHead then
    match parseJString (l.drop 14) with
    | some (k, r1) =>
      if r1.take 9 = valueHead then
        match parseJString (r1.drop 9) with
        | some (v, r2) => if r2 = closeBB then some (.set k v) else none
        | none => none
      else none
    | none => none
  else if l.take 17 = removeKeyHead then
    match parseJString (l.drop 17) with
    | some (k, r) => if r = closeBB then some (.remove k) else none
    | none => none
  else none

/-! ### Framing -/

/-- `u32::to_be_bytes` of `n % 2^32`. -/
def be32 (n : Nat) : List Nat :=
  [n / 16777216 % 256, n / 65536 % 256, n / 256 % 256, n % 256]

/-- `u32::from_be_bytes` on a 4-byte buffer. -/
def be32val : List Nat → Nat
  | [b0, b1, b2, b3] => ((b0 * 256 + b1) * 256 + b2) * 256 + b3
  | _ => 0

/-- The on-disk footprint of one log entry: 4-byte header (the payload length
cast to `u32`, i.e. taken mod 2^32, per `data.len() as u32` on line 195)
followed by the payload. -/
def frame (p : List Nat) : List Nat := be32 (p.length % 4294967296) ++ p

/-! ### The store -/

/-- `RuskStore` (engine.rs lines 30-36).  `file` models the bytes of
`data.log`; `path` and the handles carry no observable state. -/
structure RuskStore where
  file : List Nat
  index : List (String × CommandPos)
  current_pos : Nat
  uncompacted : Nat
deriving DecidableEq

def COMPACTION_THRESHOLD : Nat := 1048576

/-- A random-access read of one framed entry: seek to `off`, `read_exact` the
4-byte header, then `read_exact` that many payload bytes.  A short read is the
`UnexpectedEof` I/O error `read_exact` produces. -/
def readEntryParts (file : List Nat) (off : Nat) :
    Except RuskError (List Nat × List Nat) :=
  let rest := file.drop off
  if rest.length < 4 then .error .ioError
  else
    let lenBuf := rest.take 4
    let dataLen := be32val lenBuf
    if (rest.drop 4).length < dataLen then .error .ioError
    else .ok (lenBuf, (rest.drop 4).take dataLen)

/-- `RuskStore::write_command` (lines 193-210): serialize, append the header
and payload, flush, advance `current_pos` by the untruncated entry length and
report the pre-write position. -/
def writeCommand (s : RuskStore) (cmd : Command) : RuskStore × CommandPos :=
  let data := payloadBytes cmd
  let entryLen := 4 + data.length
  ({ s with
      file := s.file ++ (be32 (data.length % 4294967296) ++ data),
      current_pos := s.current_pos + entryLen },
   { offset := s.current_pos, length := entryLen })

/-- The loop body of `RuskStore::compact` (lines 232-254): read each live
entry's header and payload from the old log, append both verbatim to the
compaction file, and record the new position (its length is `4 + data_len`
with `data_len` taken from the header just read, line 245). -/
def compactGo (file : List Nat) :
    List (String × CommandPos) → List Nat → List (String × CommandPos) → Nat →
    Except RuskError (List Nat × List (String × CommandPos) × Nat)
  | [], nf, ni, np => .ok (nf, ni, np)
  | (k, cp) :: rest, nf, ni, np =>
    match readEntryParts file cp.offset with
    | .error e => .error e
    | .ok (lenBuf, dataBuf) =>
      let entryLen := 4 + dataBuf.length
      compactGo file rest (nf ++ (lenBuf ++ dataBuf))
        (ainsert ni k { offset := np, length := entryLen }) (np + entryLen)

/-- `RuskStore::compact` (lines 215-270): rewrite the live entries into a
fresh file, atomically swap it in, install the rebuilt index, set
`current_pos` to the new length and reset `uncompacted` to 0.  On an error
the store's own fields are untouched (all `self` mutations happen after the
reads and the rename). -/
def RuskStore.compact (s : RuskStore) : Except RuskError RuskStore :=
  match compactGo s.file s.index [] [] 0 with
  | .error e => .error e
  | .ok (nf, ni, np) =>
    .ok { file := nf, index := ni, current_pos := np, uncompacted := 0 }

/-- `RuskStore::set` (lines 123-140). -/
def RuskStore.set (s : RuskStore) (key value : String) :
    Except RuskError Unit × RuskStore :=
  let wr := writeCommand s (.set key value)
  let old := alookup wr.1.index key
  let s2 := { wr.1 with
      index := ainsert wr.1.index key wr.2,
      uncompacted := wr.1.uncompacted + (match old with | some p => p.length | none => 0) }
  if s2.uncompacted > COMPACTION_THRESHOLD then
    match s2.compact with
    | .ok s3 => (.ok (), s3)
    | .error e => (.error e, s2)
  else (.ok (), s2)

/-- `RuskStore::get` (lines 145-168). -/
def RuskStore.get (s : RuskStore) (key : String) :
    Except RuskError (Option String) :=
  match alookup s.index key with
  | none => .ok none
  | some cp =>
    match readEntryParts s.file cp.offset with
    | .error e => .error e
    | .ok (_, dataBuf) =>
      match parseCommand dataBuf with
      | none => .error .serdeError
      | some (.set _ v) => .ok (some v)
      | some (.remove _) => .error .unexpectedCommand

/-- `RuskStore::remove` (lines 173-191). -/
def RuskStore.remove (s : RuskStore) (key : String) :
    Except RuskError Unit × RuskStore :=
  if (alookup s.index key).isNone then (.error .keyNotFound, s)
  else
    let wr := writeCommand s (.remove key)
    let old := alookup wr.1.index key
    let s2 := { wr.1 with
        index := aerase wr.1.index key,
        uncompacted := wr.1.uncompacted
          + (match old with | some p => p.length | none => 0) + wr.2.length }
    if s2.uncompacted > COMPACTION_THRESHOLD then
      match s2.compact with
      | .ok s3 => (.ok (), s3)
      | .error e => (.error e, s2)
    else (.ok (), s2)

/-! ### Replay and open -/

/-- The per-entry accumulator of `replay_log`: the index under construction,
the `previous_positions` map of the latest live Set entry length per key, and
the running `uncompacted` counter. -/
structure ReplayState where
  index : List (String × CommandPos)
  previous : List (String × Nat)
  uncompacted : Nat
deriving DecidableEq

/-- The `match &cmd` body of `replay_log` (lines 91-111). -/
def replayStep (cmd : Command) (pos entryLen : Nat) (st : ReplayState) : ReplayState :=
  match cmd with
  | .set k _ =>
    { index := ainsert st.index k { offset := pos, length := entryLen },
      previous := ainsert st.previous k entryLen,
      uncompacted := st.uncompacted
        + (match alookup st.previous k with | some m => m | none => 0) }
  | .remove k =>
    { index := aerase st.index k,
      previous := aerase st.previous k,
      uncompacted := st.uncompacted
        + (match alookup st.index k with | some p => p.length | none => 0) + entryLen }

/-- The `while pos < file_len` loop of `replay_log` (lines 77-114), running on
the unread suffix of the file.  `fuel` is an upper bound on the number of
iterations (each iteration consumes at least 4 bytes, and the top-level entry
point passes more fuel than the file has bytes, so the fuel never runs out).
A failed header read (fewer than 4 bytes left) breaks out of the loop; a
short payload read is a propagated I/O error; an undecodable payload is a
propagated serde error. -/
def replayGo : Nat → List Nat → Nat → ReplayState → Except RuskError (ReplayState × Nat)
  | 0, _, pos, st => .ok (st, pos)
  | fuel + 1, rest, pos, st =>
    if rest.isEmpty then .ok (st, pos)
    else if rest.length < 4 then .ok (st, pos)
    else
      let dataLen := be32val (rest.take 4)
      if (rest.drop 4).length < dataLen then .error .ioError
      else
        match parseCommand ((rest.drop 4).take dataLen) with
        | none => .error .serdeError
        | some cmd =>
          let entryLen := 4 + dataLen
          replayGo fuel (rest.drop entryLen) (pos + entryLen)
            (replayStep cmd pos entryLen st)

/-- `RuskStore::replay_log` (lines 63-118) on the whole file. -/
def replayLog (file : List Nat) : Except RuskError (ReplayState × Nat) :=
  replayGo (file.length + 1) file 0 { index := [], previous := [], uncompacted := 0 }

/-- `RuskStore::open` (lines 39-61): create the directory, create/open the
log in append mode, replay it.  The argument is the content of `data.log`
(`[]` for a fresh directory, since the writer's `create(true)` makes an empty
file before replay runs). -/
def openStore (file : List Nat) : Except RuskError RuskStore :=
  match replayLog file with
  | .error e => .error e
  | .ok (st, pos) =>
    .ok { file := file, index := st.index, current_pos := pos,
          uncompacted := st.uncompacted }

/-- The store produced by opening a fresh directory. -/
def store0 : RuskStore := { file := [], index := [], current_pos := 0, uncompacted := 0 }

/-! ### Failure-injected write operations

The only fallible step of the write path before any in-memory mutation is the
`write_all`/`flush` inside `write_command` (an `io::Error`, propagated by `?`
on line 129 resp. 179 before the index is touched).  These variants model
that failure point: when `appendOk` is false the append fails after `junk`
bytes (possibly none) of the buffered write reached the disk, and the
operation returns the I/O error immediately. -/

def RuskStore.setF (s : RuskStore) (key value : String)
    (appendOk : Bool) (junk : List Nat) : Except RuskError Unit × RuskStore :=
  if appendOk then s.set key value
  else (.error .ioError, { s with file := s.file ++ junk })

def RuskStore.removeF (s : RuskStore) (key : String)
    (appendOk : Bool) (junk : List Nat) : Except RuskError Unit × RuskStore :=
  if (alookup s.index key).isNone then (.error .keyNotFound, s)
  else if appendOk then s.remove key
  else (.error .ioError, { s with file := s.file ++ junk })

/-! ### Operation sequences and observations -/

inductive Op where
  | setOp (k v : String)
  | getOp (k : String)
  | removeOp (k : String)
  | compactOp
deriving DecidableEq

/-- State evolution of one public call.  `get` takes `&mut self` but mutates
nothing; a failed `remove` returns before any write; a failed `compact`
leaves the store's fields untouched. -/
def stepOp (s : RuskStore) : Op → RuskStore
  | .setOp k v => (s.set k v).2
  | .getOp _ => s
  | .removeOp k => (s.remove k).2
  | .compactOp => match s.compact with | .ok t => t | .error _ => s

def runState (s : RuskStore) : List Op → RuskStore
  | [] => s
  | op :: rest => runState (stepOp s op) rest

/-- The caller-visible result of a `get` or `remove` call. -/
inductive ObsRes where
  | got (r : Except RuskError (Option String))
  | removed (r : Except RuskError Unit)
deriving DecidableEq

def obsOf (s : RuskStore) : Op → Option ObsRes
  | .getOp k => some (.got (s.get k))
  | .removeOp k => some (.removed (s.remove k).1)
  | _ => none

/-- The trace of `get`/`remove` results along a run. -/
def runObs (s : RuskStore) : List Op → List (Option ObsRes)
  | [] => []
  | op :: rest => obsOf s op :: runObs (stepOp s op) rest

/-- A command whose serialized payload fits the `u32` length header without
truncation. -/
def SmallCmd (c : Command) : Prop := (payloadBytes c).length < 4294967296

instance (c : Command) : Decidable (SmallCmd c) := by
  unfold SmallCmd; infer_instance

def SmallOp : Op → Prop
  | .setOp k v => SmallCmd (.set k v)
  | .removeOp k => SmallCmd (.remove k)
  | .getOp _ => True
  | .compactOp => True

instance (op : Op) : Decidable (SmallOp op) := by
  cases op <;> (unfold SmallOp; infer_instance)

def SmallOps (P : List Op) : Prop := ∀ op ∈ P, SmallOp op

instance (P : List Op) : Decidable (SmallOps P) := by
  unfold SmallOps; infer_instance

/-! ### Association-list lemmas -/

theorem alookup_ainsert_self {α : Type} (l : List (String × α)) (k : String) (v : α) :
    alookup (ainsert l k v) k = some v := by
  induction l with
  | nil => simp [ainsert, alookup]
  | cons e rest ih =>
    obtain ⟨k0, v0⟩ := e
    by_cases h : k = k0
    · simp [ainsert, alookup, h]
    · simp [ainsert, alookup, h, ih]

theorem alookup_ainsert_ne {α : Type} (l : List (String × α)) (k k' : String) (v : α)
    (h : k' ≠ k) : alookup (ainsert l k v) k' = alookup l k' := by
  induction l with
  | nil => simp [ainsert, alookup, h]
  | cons e rest ih =>
    obtain ⟨k0, v0⟩ := e
    by_cases h0 : k = k0
    · subst h0; simp [ainsert, alookup, h]
    · by_cases h1 : k' = k0
      · simp [ainsert, alookup, h0, h1]
      · simp [ainsert, alookup, h0, h1, ih]

theorem alookup_aerase_ne {α : Type} (l : List (String × α)) (k k' : String)
    (h : k' ≠ k) : alookup (aerase l k) k' = alookup l k' := by
  induction l with
  | nil => simp [aerase]
  | cons e rest ih =>
    obtain ⟨k0, v0⟩ := e
    by_cases h0 : k = k0
    · subst h0; simp [aerase, alookup, h]
    · by_cases h1 : k' = k0
      · simp [aerase, alookup, h0, h1]
      · simp [aerase, alookup, h0, h1, ih]


theorem alookup_none_of_not_mem {α : Type} (l : List (String × α)) (k : String)
    (h : k ∉ l.map Prod.fst) : alookup l k = none := by
  induction l with
  | nil => simp [alookup]
  | cons e rest ih =>
    obtain ⟨k0, v0⟩ := e
    simp only [List.map_cons, List.mem_cons] at h
    push_neg at h
    simp [alookup, h.1, ih h.2]

theorem alookup_isSome_iff_mem {α : Type} (l : List (String × α)) (k : String) :
    (alookup l k).isSome = true ↔ k ∈ l.map Prod.fst := by
  induction l with
  | nil => simp [alookup]
  | cons e rest ih =>
    obtain ⟨k0, v0⟩ := e
    by_cases h : k = k0
    · subst h; simp [alookup]
    · simp [alookup, h, ih]

theorem mapfst_ainsert_mem {α : Type} (l : List (String × α)) (k : String) (v : α)
    (h : k ∈ l.map Prod.fst) : (ainsert l k v).map Prod.fst = l.map Prod.fst := by
  induction l with
  | nil => simp at h
  | cons e rest ih =>
    obtain ⟨k0, v0⟩ := e
    simp only [List.map_cons, List.mem_cons] at h
    by_cases h0 : k = k0
    · subst h0; simp [ainsert]
    · rcases h with h | h
      · exact absurd h h0
      · simp [ainsert, h0, ih h]

theorem mapfst_ainsert_not_mem {α : Type} (l : List (String × α)) (k : String) (v : α)
    (h : k ∉ l.map Prod.fst) : (ainsert l k v).map Prod.fst = l.map Prod.fst ++ [k] := by
  induction l with
  | nil => simp [ainsert]
  | cons e rest ih =>
    obtain ⟨k0, v0⟩ := e
    simp only [List.map_cons, List.mem_cons] at h
    push_neg at h
    simp [ainsert, h.1, ih h.2]

theorem mapfst_aerase {α : Type} (l : List (String × α)) (k : String) :
    (aerase l k).map Prod.fst = (l.map Prod.fst).erase k := by
  induction l with
  | nil => simp [aerase]
  | cons e rest ih =>
    obtain ⟨k0, v0⟩ := e
    by_cases h0 : k = k0
    · subst h0; simp [aerase, List.erase_cons_head]
    · have hbeq : (k0 == k) = false := by
        simp only [beq_eq_false_iff_ne]; exact fun hh => h0 hh.symm
      simp [aerase, h0, List.erase_cons, hbeq, ih]

theorem alookup_aerase_self {α : Type} (l : List (String × α)) (k : String)
    (h : (l.map Prod.fst).Nodup) : alookup (aerase l k) k = none := by
  apply alookup_none_of_not_mem
  rw [mapfst_aerase]
  intro hmem
  rcases (List.Nodup.mem_erase_iff h).mp hmem with ⟨hne, _⟩
  exact hne rfl

theorem nodup_ainsert {α : Type} (l : List (String × α)) (k : String) (v : α)
    (h : (l.map Prod.fst).Nodup) : ((ainsert l k v).map Prod.fst).Nodup := by
  by_cases hm : k ∈ l.map Prod.fst
  · rw [mapfst_ainsert_mem l k v hm]; exact h
  · rw [mapfst_ainsert_not_mem l k v hm, List.nodup_append]
    refine ⟨h, List.nodup_singleton k, ?_⟩
    intro a ha hb
    simp only [List.mem_singleton] at hb
    subst hb
    exact hm ha

theorem nodup_aerase {α : Type} (l : List (String × α)) (k : String)
    (h : (l.map Prod.fst).Nodup) : ((aerase l k).map Prod.fst).Nodup := by
  rw [mapfst_aerase]; exact h.erase k

/-! ### Framing lemmas -/

theorem length_be32 (n : Nat) : (be32 n).length = 4 := rfl

theorem be32val_be32 (n : Nat) : be32val (be32 n) = n % 4294967296 := by
  simp only [be32, be32val]
  omega

theorem length_frame (p : List Nat) : (frame p).length = 4 + p.length := by
  simp [frame, length_be32]

theorem readEntryParts_isOk_bounds (f : List Nat) (off : Nat) (pr : List Nat × List Nat)
    (h : readEntryParts f off = .ok pr) :
    off + 4 ≤ f.length ∧ pr.1 = (f.drop off).take 4 ∧
      pr.2 = ((f.drop off).drop 4).take (be32val ((f.drop off).take 4)) ∧
      pr.2.length = be32val ((f.drop off).take 4) ∧ pr.1.length = 4 ∧
      off + 4 + pr.2.length ≤ f.length := by
  simp only [readEntryParts] at h
  split at h
  · exact absurd h (by simp)
  · split at h
    · exact absurd h (by simp)
    · next h4 hd =>
      cases h
      have hlen := List.length_drop off f
      have hlen2 := List.length_drop 4 (f.drop off)
      refine ⟨by omega, rfl, rfl, ?_, ?_, ?_⟩
      · simp only [List.length_take]; omega
      · simp only [List.length_take]; omega
      · simp only [List.length_take]; omega

theorem readEntryParts_append_of_le (f x : List Nat) (off : Nat)
    (hoff : off + 4 ≤ f.length)
    (hbound : off + 4 + be32val ((f.drop off).take 4) ≤ f.length) :
    readEntryParts (f ++ x) off = readEntryParts f off := by
  have hL : (f.drop off).length = f.length - off := List.length_drop off f
  have hL2 : ((f.drop off).drop 4).length = f.length - off - 4 := by
    have h1 := List.length_drop 4 (f.drop off)
    omega
  have hdrop : (f ++ x).drop off = f.drop off ++ x := by
    rw [List.drop_append_eq_append_drop]
    have h0 : off - f.length = 0 := by omega
    simp only [h0, List.drop_zero]
  have htake4 : (f.drop off ++ x).take 4 = (f.drop off).take 4 := by
    rw [List.take_append_eq_append_take]
    have h0 : 4 - (f.drop off).length = 0 := by omega
    simp only [h0, List.take_zero, List.append_nil]
  have hdrop4 : (f.drop off ++ x).drop 4 = (f.drop off).drop 4 ++ x := by
    rw [List.drop_append_eq_append_drop]
    have h0 : 4 - (f.drop off).length = 0 := by omega
    simp only [h0, List.drop_zero]
  have htaken : ((f.drop off).drop 4 ++ x).take (be32val ((f.drop off).take 4)) =
      ((f.drop off).drop 4).take (be32val ((f.drop off).take 4)) := by
    rw [List.take_append_eq_append_take]
    have h0 : be32val ((f.drop off).take 4) - ((f.drop off).drop 4).length = 0 := by
      omega
    simp only [h0, List.take_zero, List.append_nil]
  have h4a : ¬ ((f.drop off ++ x).length < 4) := by
    simp only [List.length_append]; omega
  have h4b : ¬ ((f.drop off).length < 4) := by omega
  have hna : ¬ (((f.drop off).drop 4 ++ x).length < be32val ((f.drop off).take 4)) := by
    simp only [List.length_append]; omega
  have hnb : ¬ (((f.drop off).drop 4).length < be32val ((f.drop off).take 4)) := by
    omega
  simp only [readEntryParts, hdrop, htake4, hdrop4, htaken,
    if_neg h4a, if_neg h4b, if_neg hna, if_neg hnb]

theorem readEntryParts_append_right (f x : List Nat) (off : Nat)
    (pr : List Nat × List Nat) (h : readEntryParts f off = .ok pr) :
    readEntryParts (f ++ x) off = .ok pr := by
  obtain ⟨hoff, _, _, hlen2, _, hbound⟩ := readEntryParts_isOk_bounds f off pr h
  rw [readEntryParts_append_of_le f x off hoff (by omega), h]

theorem readEntryParts_at_append (f p : List Nat) :
    readEntryParts (f ++ frame p) f.length =
      .ok (be32 (p.length % 4294967296), p.take (p.length % 4294967296)) := by
  have hdrop : (f ++ frame p).drop f.length = frame p := List.drop_left f (frame p)
  have hlen : (frame p).length = 4 + p.length := length_frame p
  have h4 : ¬((frame p).length < 4) := by omega
  have htake4 : (frame p).take 4 = be32 (p.length % 4294967296) := by
    unfold frame
    have h0 : (be32 (p.length % 4294967296)).length = 4 := length_be32 _
    rw [← h0, List.take_left]
  have hdrop4 : (frame p).drop 4 = p := by
    unfold frame
    have h0 : (be32 (p.length % 4294967296)).length = 4 := length_be32 _
    rw [← h0, List.drop_left]
  have hval : be32val (be32 (p.length % 4294967296)) = p.length % 4294967296 := by
    rw [be32val_be32]; omega
  have hmle : p.length % 4294967296 ≤ p.length := Nat.mod_le _ _
  have hnb : ¬ (p.length < p.length % 4294967296) := by omega
  simp only [readEntryParts, hdrop, htake4, hdrop4, hval, if_neg h4]
  rw [if_neg (by simpa [hdrop4] using hnb)]

theorem readEntryParts_at_append_small (f p : List Nat) (h : p.length < 4294967296) :
    readEntryParts (f ++ frame p) f.length = .ok (be32 p.length, p) := by
  rw [readEntryParts_at_append, Nat.mod_eq_of_lt h, List.take_of_length_le (le_refl _)]


/-! ### Round-trip of the payload encoding -/

theorem hexDigit_round (m : Nat) (h : m < 16) : parseHexDigit (hexDigit m) = some m := by
  unfold hexDigit parseHexDigit
  by_cases h10 : m < 10
  · rw [if_pos h10, if_pos (by omega)]
    simp only [Option.some.injEq]; omega
  · rw [if_neg h10, if_neg (by omega), if_pos (by omega)]
    simp only [Option.some.injEq]; omega

theorem char_toNat_valid (c : Char) :
    c.toNat < 55296 ∨ (57343 < c.toNat ∧ c.toNat < 1114112) := by
  have h := c.valid
  simp only [UInt32.isValidChar, Nat.isValidChar] at h
  exact h

theorem char_eq_of_toNat_eq {c d : Char} (h : c.toNat = d.toNat) : c = d := by
  rw [← Char.ofNat_toNat c, ← Char.ofNat_toNat d, h]

theorem toNat_ne_of_ne {c d : Char} (h : c ≠ d) : c.toNat ≠ d.toNat :=
  fun hh => h (char_eq_of_toNat_eq hh)

theorem parseJStrF_quote (fuel : Nat) (rest : List Nat) :
    parseJStrF (fuel + 1) (34 :: rest) = some ([], rest) := rfl

theorem parseJStrF_esc (fuel : Nat) (e : Nat) (rest : List Nat) (ch : Char)
    (cs : List Char) (r : List Nat) (he : e ≠ 117) (hcode : escCode e = some ch)
    (hrec : parseJStrF fuel rest = some (cs, r)) :
    parseJStrF (fuel + 1) (92 :: e :: rest) = some (ch :: cs, r) := by
  simp only [parseJStrF, if_neg (by omega : ¬ (92 : Nat) = 34), if_pos rfl, if_true,
    if_neg he, hcode, hrec]

theorem parseJStrF_escU (fuel : Nat) (h1 h2 h3 h4 : Nat) (rest : List Nat)
    (d1 d2 d3 d4 n : Nat) (cs : List Char) (r : List Nat)
    (e1 : parseHexDigit h1 = some d1) (e2 : parseHexDigit h2 = some d2)
    (e3 : parseHexDigit h3 = some d3) (e4 : parseHexDigit h4 = some d4)
    (hn : ((d1 * 16 + d2) * 16 + d3) * 16 + d4 = n)
    (hv : n < 55296 ∨ 57343 < n)
    (hrec : parseJStrF fuel rest = some (cs, r)) :
    parseJStrF (fuel + 1) (92 :: 117 :: h1 :: h2 :: h3 :: h4 :: rest) =
      some (Char.ofNat n :: cs, r) := by
  simp only [parseJStrF, if_neg (by omega : ¬ (92 : Nat) = 34), if_pos rfl, if_true,
    e1, e2, e3, e4, hn, if_pos hv, hrec]

theorem parseJStrF_ascii (fuel : Nat) (b : Nat) (rest : List Nat) (cs : List Char)
    (r : List Nat) (hb1 : b ≠ 34) (hb2 : b ≠ 92) (hb3 : ¬ b < 32) (hb4 : b < 128)
    (hrec : parseJStrF fuel rest = some (cs, r)) :
    parseJStrF (fuel + 1) (b :: rest) = some (Char.ofNat b :: cs, r) := by
  simp only [parseJStrF, if_neg hb1, if_neg hb2, if_neg hb3, if_pos hb4, hrec]

theorem parseJStrF_two (fuel : Nat) (b b1 : Nat) (rest : List Nat) (cs : List Char)
    (r : List Nat) (hb : 194 ≤ b ∧ b ≤ 223) (hb1 : 128 ≤ b1 ∧ b1 ≤ 191)
    (hrec : parseJStrF fuel rest = some (cs, r)) :
    parseJStrF (fuel + 1) (b :: b1 :: rest) =
      some (Char.ofNat ((b - 192) * 64 + (b1 - 128)) :: cs, r) := by
  simp only [parseJStrF, if_neg (by omega : ¬ b = 34), if_neg (by omega : ¬ b = 92),
    if_neg (by omega : ¬ b < 32), if_neg (by omega : ¬ b < 128), if_pos hb,
    if_pos hb1, hrec]

theorem parseJStrF_three (fuel : Nat) (b b1 b2 : Nat) (rest : List Nat) (n : Nat)
    (cs : List Char) (r : List Nat)
    (hb : 224 ≤ b ∧ b ≤ 239) (hb1 : 128 ≤ b1 ∧ b1 ≤ 191) (hb2 : 128 ≤ b2 ∧ b2 ≤ 191)
    (hn : (b - 224) * 4096 + (b1 - 128) * 64 + (b2 - 128) = n)
    (hv : 2048 ≤ n ∧ (n < 55296 ∨ 57343 < n))
    (hrec : parseJStrF fuel rest = some (cs, r)) :
    parseJStrF (fuel + 1) (b :: b1 :: b2 :: rest) = some (Char.ofNat n :: cs, r) := by
  simp only [parseJStrF, if_neg (by omega : ¬ b = 34), if_neg (by omega : ¬ b = 92),
    if_neg (by omega : ¬ b < 32), if_neg (by omega : ¬ b < 128),
    if_neg (by omega : ¬ (194 ≤ b ∧ b ≤ 223)), if_pos hb,
    if_pos (And.intro hb1 hb2), hn, if_pos hv, hrec]

theorem parseJStrF_four (fuel : Nat) (b b1 b2 b3 : Nat) (rest : List Nat) (n : Nat)
    (cs : List Char) (r : List Nat)
    (hb : 240 ≤ b ∧ b ≤ 244) (hb1 : 128 ≤ b1 ∧ b1 ≤ 191) (hb2 : 128 ≤ b2 ∧ b2 ≤ 191)
    (hb3 : 128 ≤ b3 ∧ b3 ≤ 191)
    (hn : (b - 240) * 262144 + (b1 - 128) * 4096 + (b2 - 128) * 64 + (b3 - 128) = n)
    (hv : 65536 ≤ n ∧ n < 1114112)
    (hrec : parseJStrF fuel rest = some (cs, r)) :
    parseJStrF (fuel + 1) (b :: b1 :: b2 :: b3 :: rest) =
      some (Char.ofNat n :: cs, r) := by
  simp only [parseJStrF, if_neg (by omega : ¬ b = 34), if_neg (by omega : ¬ b = 92),
    if_neg (by omega : ¬ b < 32), if_neg (by omega : ¬ b < 128),
    if_neg (by omega : ¬ (194 ≤ b ∧ b ≤ 223)), if_neg (by omega : ¬ (224 ≤ b ∧ b ≤ 239)),
    if_pos hb, if_pos (And.intro hb1 (And.intro hb2 hb3)), hn, if_pos hv, hrec]

/-- Parsing consumes the escape of one character and produces that character. -/
theorem parseJStrF_escChar (fuel : Nat) (c : Char) (l : List Nat) (cs : List Char)
    (r : List Nat) (h : parseJStrF fuel l = some (cs, r)) :
    parseJStrF (fuel + 1) (escChar c ++ l) = some (c :: cs, r) := by
  by_cases hq : c = '"'
  · subst hq
    simp only [escChar, if_pos rfl, List.cons_append, List.nil_append]
    exact parseJStrF_esc fuel 34 l '"' cs r (by omega) rfl h
  · by_cases hbs : c = '\\'
    · subst hbs
      simp only [escChar, if_neg (by decide : ¬ ('\\' : Char) = '"'), if_pos rfl,
        List.cons_append, List.nil_append]
      exact parseJStrF_esc fuel 92 l '\\' cs r (by omega) rfl h
    · have hq34 : c.toNat ≠ 34 := by
        intro hh
        exact hq (char_eq_of_toNat_eq (by rw [hh]; rfl))
      have hbs92 : c.toNat ≠ 92 := by
        intro hh
        exact hbs (char_eq_of_toNat_eq (by rw [hh]; rfl))
      by_cases h8 : c.toNat = 8
      · simp only [escChar, if_neg hq, if_neg hbs, if_pos h8, List.cons_append,
          List.nil_append]
        have hc : Char.ofNat 8 = c := by rw [← h8, Char.ofNat_toNat]
        rw [← hc]
        exact parseJStrF_esc fuel 98 l (Char.ofNat 8) cs r (by omega) rfl h
      · by_cases h9 : c.toNat = 9
        · simp only [escChar, if_neg hq, if_neg hbs, if_neg h8, if_pos h9,
            List.cons_append, List.nil_append]
          have hc : Char.ofNat 9 = c := by rw [← h9, Char.ofNat_toNat]
          rw [← hc]
          exact parseJStrF_esc fuel 116 l (Char.ofNat 9) cs r (by omega) rfl h
        · by_cases h10 : c.toNat = 10
          · simp only [escChar, if_neg hq, if_neg hbs, if_neg h8, if_neg h9,
              if_pos h10, List.cons_append, List.nil_append]
            have hc : Char.ofNat 10 = c := by rw [← h10, Char.ofNat_toNat]
            rw [← hc]
            exact parseJStrF_esc fuel 110 l (Char.ofNat 10) cs r (by omega) rfl h
          · by_cases h12 : c.toNat = 12
            · simp only [escChar, if_neg hq, if_neg hbs, if_neg h8, if_neg h9,
                if_neg h10, if_pos h12, List.cons_append, List.nil_append]
              have hc : Char.ofNat 12 = c := by rw [← h12, Char.ofNat_toNat]
              rw [← hc]
              exact parseJStrF_esc fuel 102 l (Char.ofNat 12) cs r (by omega) rfl h
            · by_cases h13 : c.toNat = 13
              · simp only [escChar, if_neg hq, if_neg hbs, if_neg h8, if_neg h9,
                  if_neg h10, if_neg h12, if_pos h13, List.cons_append, List.nil_append]
                have hc : Char.ofNat 13 = c := by rw [← h13, Char.ofNat_toNat]
                rw [← hc]
                exact parseJStrF_esc fuel 114 l (Char.ofNat 13) cs r (by omega) rfl h
              · by_cases hctl : c.toNat < 32
                · simp only [escChar, if_neg hq, if_neg hbs, if_neg h8, if_neg h9,
                    if_neg h10, if_neg h12, if_neg h13, if_pos hctl, List.cons_append,
                    List.nil_append]
                  have hofc : Char.ofNat c.toNat = c := Char.ofNat_toNat c
                  have hstep := parseJStrF_escU fuel 48 48 (hexDigit (c.toNat / 16))
                    (hexDigit (c.toNat % 16)) l 0 0 (c.toNat / 16) (c.toNat % 16)
                    c.toNat cs r (by decide) (by decide)
                    (hexDigit_round _ (by omega)) (hexDigit_round _ (by omega))
                    (by omega) (by omega) h
                  rw [hofc] at hstep
                  exact hstep
                · have hval := char_toNat_valid c
                  simp only [escChar, if_neg hq, if_neg hbs, if_neg h8, if_neg h9,
                    if_neg h10, if_neg h12, if_neg h13, if_neg hctl]
                  unfold utf8Bytes
                  by_cases hr1 : c.toNat < 128
                  · simp only [if_pos hr1, List.cons_append, List.nil_append]
                    have hofc : Char.ofNat c.toNat = c := Char.ofNat_toNat c
                    have hstep := parseJStrF_ascii fuel c.toNat l cs r hq34 hbs92 hctl hr1 h
                    rw [hofc] at hstep
                    exact hstep
                  · by_cases hr2 : c.toNat < 2048
                    · simp only [if_neg hr1, if_pos hr2, List.cons_append,
                        List.nil_append]
                      have hofc : Char.ofNat c.toNat = c := Char.ofNat_toNat c
                      have harith : (192 + c.toNat / 64 - 192) * 64 +
                          (128 + c.toNat % 64 - 128) = c.toNat := by omega
                      have hstep := parseJStrF_two fuel (192 + c.toNat / 64)
                        (128 + c.toNat % 64) l cs r (by omega) (by omega) h
                      rw [hstep, harith, hofc]
                    · by_cases hr3 : c.toNat < 65536
                      · simp only [if_neg hr1, if_neg hr2, if_pos hr3,
                          List.cons_append, List.nil_append]
                        have hofc : Char.ofNat c.toNat = c := Char.ofNat_toNat c
                        have hstep := parseJStrF_three fuel (224 + c.toNat / 4096)
                          (128 + c.toNat / 64 % 64) (128 + c.toNat % 64) l c.toNat cs r
                          (by omega) (by omega) (by omega) (by omega)
                          (by omega) h
                        rw [hofc] at hstep
                        exact hstep
                      · simp only [if_neg hr1, if_neg hr2, if_neg hr3,
                          List.cons_append, List.nil_append]
                        have hofc : Char.ofNat c.toNat = c := Char.ofNat_toNat c
                        have hstep := parseJStrF_four fuel (240 + c.toNat / 262144)
                          (128 + c.toNat / 4096 % 64) (128 + c.toNat / 64 % 64)
                          (128 + c.toNat % 64) l c.toNat cs r
                          (by omega) (by omega) (by omega) (by omega) (by omega)
                          (by omega) h
                        rw [hofc] at hstep
                        exact hstep

theorem utf8Bytes_length_pos (c : Char) : 1 ≤ (utf8Bytes c).length := by
  simp only [utf8Bytes]
  split_ifs <;> simp

theorem escChar_length_pos (c : Char) : 1 ≤ (escChar c).length := by
  unfold escChar
  split_ifs <;> first | simp | exact utf8Bytes_length_pos c

theorem escList_length_ge (cs : List Char) : cs.length ≤ (escList cs).length := by
  induction cs with
  | nil => simp [escList]
  | cons c cs ih =>
    have hc : 1 ≤ (escChar c).length := escChar_length_pos c
    simp only [escList, List.length_append, List.length_cons]
    omega

theorem parseJStrF_round (cs : List Char) :
    ∀ fuel rest, cs.length + 1 ≤ fuel →
      parseJStrF fuel (escList cs ++ 34 :: rest) = some (cs, rest) := by
  induction cs with
  | nil =>
    intro fuel rest hf
    match fuel, hf with
    | f + 1, _ => simp only [escList, List.nil_append, parseJStrF_quote]
  | cons c cs ih =>
    intro fuel rest hf
    match fuel, hf with
    | f + 1, hf =>
      have hrec := ih f rest (by simp only [List.length_cons] at hf; omega)
      have hshape : escList (c :: cs) ++ 34 :: rest =
          escChar c ++ (escList cs ++ 34 :: rest) := by
        simp [escList, List.append_assoc]
      rw [hshape]
      exact parseJStrF_escChar f c _ cs rest hrec

theorem parseJStr_round (cs : List Char) (rest : List Nat) :
    parseJStr (escList cs ++ 34 :: rest) = some (cs, rest) := by
  unfold parseJStr
  apply parseJStrF_round
  have := escList_length_ge cs
  simp only [List.length_append, List.length_cons]
  omega

theorem string_mk_data (s : String) : String.mk s.data = s := rfl

theorem parseJString_round (s : String) (rest : List Nat) :
    parseJString (jstr s ++ rest) = some (s, rest) := by
  have hshape : jstr s ++ rest = 34 :: (escList s.data ++ 34 :: rest) := by
    simp [jstr, List.append_assoc]
  rw [hshape]
  simp only [parseJString, parseJStr_round, string_mk_data]

theorem take_append_exact (a b : List Nat) (n : Nat) (h : a.length = n) :
    (a ++ b).take n = a := by
  subst h; exact List.take_left a b

theorem drop_append_exact (a b : List Nat) (n : Nat) (h : a.length = n) :
    (a ++ b).drop n = b := by
  subst h; exact List.drop_left a b

theorem take_append_of_le (a b : List Nat) (n : Nat) (h : n ≤ a.length) :
    (a ++ b).take n = a.take n := by
  rw [List.take_append_eq_append_take]
  have h0 : n - a.length = 0 := by omega
  simp only [h0, List.take_zero, List.append_nil]

/-- `from_slice` inverts `to_vec` on every `Command`. -/
theorem parseCommand_round (c : Command) : parseCommand (payloadBytes c) = some c := by
  cases c with
  | set k v =>
    have hshape : payloadBytes (.set k v) =
        setKeyHead ++ (jstr k ++ (valueHead ++ (jstr v ++ closeBB))) := by
      simp [payloadBytes, List.append_assoc]
    have h14 : (setKeyHead ++ (jstr k ++ (valueHead ++ (jstr v ++ closeBB)))).take 14 =
        setKeyHead := take_append_exact _ _ 14 rfl
    have h14d : (setKeyHead ++ (jstr k ++ (valueHead ++ (jstr v ++ closeBB)))).drop 14 =
        jstr k ++ (valueHead ++ (jstr v ++ closeBB)) := drop_append_exact _ _ 14 rfl
    have h9 : (valueHead ++ (jstr v ++ closeBB)).take 9 = valueHead :=
      take_append_exact _ _ 9 rfl
    have h9d : (valueHead ++ (jstr v ++ closeBB)).drop 9 = jstr v ++ closeBB :=
      drop_append_exact _ _ 9 rfl
    rw [hshape]
    simp [parseCommand, h14, h14d, h9, h9d, parseJString_round]
  | remove k =>
    have hshape : payloadBytes (.remove k) = removeKeyHead ++ (jstr k ++ closeBB) := by
      simp [payloadBytes, List.append_assoc]
    have hne : (removeKeyHead ++ (jstr k ++ closeBB)).take 14 ≠ setKeyHead := by
      rw [take_append_of_le _ _ 14 (by decide)]
      decide
    have h17 : (removeKeyHead ++ (jstr k ++ closeBB)).take 17 = removeKeyHead :=
      take_append_exact _ _ 17 rfl
    have h17d : (removeKeyHead ++ (jstr k ++ closeBB)).drop 17 = jstr k ++ closeBB :=
      drop_append_exact _ _ 17 rfl
    rw [hshape]
    simp [parseCommand, hne, h17, h17d, parseJString_round]

/-! ### Store observables and the operation invariant -/

theorem except_isOk_iff {α : Type} (e : Except RuskError α) :
    e.isOk = true ↔ ∃ x, e = .ok x := by
  cases e <;> simp [Except.isOk, Except.toBool]

/-- The states in which the index is healthy: `current_pos` tracks the file
length, keys are unique, and every index entry points at a readable framed
entry of the file. -/
def StoreInv (s : RuskStore) : Prop :=
  s.current_pos = s.file.length ∧
  (s.index.map Prod.fst).Nodup ∧
  ∀ e ∈ s.index, (readEntryParts s.file e.2.offset).isOk = true

instance (s : RuskStore) : Decidable (StoreInv s) := by
  unfold StoreInv; infer_instance

/-- What a key's `get` can observe: its presence in the index and the bytes of
the entry its index record points at. -/
def chunkAt (s : RuskStore) (k : String) :
    Option (Except RuskError (List Nat × List Nat)) :=
  (alookup s.index k).map fun cp => readEntryParts s.file cp.offset

/-- Two stores that agree on key sets and on every key's entry bytes. -/
def ObsEq (s1 s2 : RuskStore) : Prop :=
  s1.index.map Prod.fst = s2.index.map Prod.fst ∧
  ∀ k, chunkAt s1 k = chunkAt s2 k

theorem alookup_mem {α : Type} (l : List (String × α)) (k : String) (v : α)
    (h : alookup l k = some v) : (k, v) ∈ l := by
  induction l with
  | nil => simp [alookup] at h
  | cons e rest ih =>
    obtain ⟨k0, v0⟩ := e
    by_cases h0 : k = k0
    · subst h0
      simp [alookup] at h
      subst h
      exact List.mem_cons_self _ _
    · simp only [alookup, if_neg h0] at h
      exact List.mem_cons_of_mem _ (ih h)

theorem get_eq_of_chunk (s1 s2 : RuskStore) (k : String)
    (h : chunkAt s1 k = chunkAt s2 k) : s1.get k = s2.get k := by
  unfold RuskStore.get
  cases h1 : alookup s1.index k with
  | none =>
    cases h2 : alookup s2.index k with
    | none => rfl
    | some cp2 => simp [chunkAt, h1, h2] at h
  | some cp1 =>
    cases h2 : alookup s2.index k with
    | none => simp [chunkAt, h1, h2] at h
    | some cp2 =>
      simp only [chunkAt, h1, h2] at h
      simp only [Option.map_some', Option.some.injEq] at h
      simp [h]

theorem isNone_eq_of_obs (s1 s2 : RuskStore) (k : String) (h : ObsEq s1 s2) :
    (alookup s1.index k).isNone = (alookup s2.index k).isNone := by
  have hc := h.2 k
  cases h1 : alookup s1.index k with
  | none =>
    cases h2 : alookup s2.index k with
    | none => rfl
    | some cp2 => simp [chunkAt, h1, h2] at hc
  | some cp1 =>
    cases h2 : alookup s2.index k with
    | none => simp [chunkAt, h1, h2] at hc
    | some cp2 => rfl

/-! ### Unfolding the write path -/

/-- The length the displaced index entry contributes to `uncompacted`. -/
def displacedLen (s : RuskStore) (k : String) : Nat :=
  match alookup s.index k with | some p => p.length | none => 0

/-- The store state after `set`'s append and index insertion, before the
compaction trigger is consulted. -/
def setPre (s : RuskStore) (k v : String) : RuskStore :=
  { file := s.file ++ frame (payloadBytes (.set k v)),
    index := ainsert s.index k
      { offset := s.current_pos, length := 4 + (payloadBytes (.set k v)).length },
    current_pos := s.current_pos + (4 + (payloadBytes (.set k v)).length),
    uncompacted := s.uncompacted + displacedLen s k }

/-- The store state after `remove`'s append and index removal, before the
compaction trigger is consulted. -/
def removePre (s : RuskStore) (k : String) : RuskStore :=
  { file := s.file ++ frame (payloadBytes (.remove k)),
    index := aerase s.index k,
    current_pos := s.current_pos + (4 + (payloadBytes (.remove k)).length),
    uncompacted := s.uncompacted + displacedLen s k
      + (4 + (payloadBytes (.remove k)).length) }

theorem set_eq (s : RuskStore) (k v : String) :
    s.set k v =
      (if (setPre s k v).uncompacted > COMPACTION_THRESHOLD then
        match (setPre s k v).compact with
        | .ok s3 => (.ok (), s3)
        | .error e => (.error e, setPre s k v)
      else (.ok (), setPre s k v)) := by
  cases s
  simp only [RuskStore.set, writeCommand, setPre, displacedLen, frame]

theorem remove_eq (s : RuskStore) (k : String) :
    s.remove k =
      (if (alookup s.index k).isNone then (.error .keyNotFound, s)
       else if (removePre s k).uncompacted > COMPACTION_THRESHOLD then
        match (removePre s k).compact with
        | .ok s3 => (.ok (), s3)
        | .error e => (.error e, removePre s k)
      else (.ok (), removePre s k)) := by
  cases s
  simp only [RuskStore.remove, writeCommand, removePre, displacedLen, frame]

/-! ### Compaction: success and preservation of every key's entry bytes -/

theorem alookup_of_mem_nodup {α : Type} (l : List (String × α)) (k : String) (v : α)
    (h : (k, v) ∈ l) (hnd : (l.map Prod.fst).Nodup) : alookup l k = some v := by
  induction l with
  | nil => simp at h
  | cons e rest ih =>
    obtain ⟨k0, v0⟩ := e
    simp only [List.map_cons, List.nodup_cons] at hnd
    by_cases hk : k = k0
    · subst hk
      rcases List.mem_cons.mp h with heq | hmem
      · cases heq; simp [alookup]
      · exact absurd (List.mem_map.mpr ⟨(k, v), hmem, rfl⟩) hnd.1
    · rcases List.mem_cons.mp h with heq | hmem
      · exact absurd (congrArg Prod.fst heq) hk
      · simp only [alookup, if_neg hk]
        exact ih hmem hnd.2

theorem ainsert_fresh {α : Type} (l : List (String × α)) (k : String) (v : α)
    (h : k ∉ l.map Prod.fst) : ainsert l k v = l ++ [(k, v)] := by
  induction l with
  | nil => simp [ainsert]
  | cons e rest ih =>
    obtain ⟨k0, v0⟩ := e
    simp only [List.map_cons, List.mem_cons] at h
    push_neg at h
    simp [ainsert, h.1, ih h.2]

theorem readEntryParts_chunk (nf lenBuf dataBuf rest2 : List Nat)
    (h4 : lenBuf.length = 4) (hlen : be32val lenBuf = dataBuf.length) :
    readEntryParts (nf ++ (lenBuf ++ (dataBuf ++ rest2))) nf.length =
      .ok (lenBuf, dataBuf) := by
  have hdrop : (nf ++ (lenBuf ++ (dataBuf ++ rest2))).drop nf.length =
      lenBuf ++ (dataBuf ++ rest2) := drop_append_exact _ _ _ rfl
  have hlen1 : (lenBuf ++ (dataBuf ++ rest2)).length = 4 + (dataBuf.length + rest2.length) := by
    simp [List.length_append, h4]
  have h4n : ¬ ((lenBuf ++ (dataBuf ++ rest2)).length < 4) := by omega
  have htake4 : (lenBuf ++ (dataBuf ++ rest2)).take 4 = lenBuf :=
    take_append_exact _ _ 4 h4
  have hdrop4 : (lenBuf ++ (dataBuf ++ rest2)).drop 4 = dataBuf ++ rest2 :=
    drop_append_exact _ _ 4 h4
  have hd : ¬ ((dataBuf ++ rest2).length < be32val lenBuf) := by
    simp only [List.length_append]; omega
  have htaked : (dataBuf ++ rest2).take (be32val lenBuf) = dataBuf := by
    rw [hlen]; exact take_append_exact _ _ _ rfl
  simp only [readEntryParts, hdrop, htake4, hdrop4, if_neg h4n, if_neg hd, htaked]

theorem compactGo_spec (file : List Nat) (entries : List (String × CommandPos)) :
    ∀ (nf : List Nat) (ni : List (String × CommandPos)),
      (∀ e ∈ entries, (readEntryParts file e.2.offset).isOk = true) →
      (ni.map Prod.fst ++ entries.map Prod.fst).Nodup →
      ∃ added packed,
        compactGo file entries nf ni nf.length =
          .ok (nf ++ added, ni ++ packed, (nf ++ added).length) ∧
        packed.map Prod.fst = entries.map Prod.fst ∧
        (∀ k cp', alookup packed k = some cp' →
          ∃ cp, alookup entries k = some cp ∧
            readEntryParts (nf ++ added) cp'.offset = readEntryParts file cp.offset) := by
  induction entries with
  | nil =>
    intro nf ni _ _
    refine ⟨[], [], ?_, rfl, ?_⟩
    · simp [compactGo]
    · intro k cp' hk
      simp [alookup] at hk
  | cons e rest ih =>
    intro nf ni hok hnd
    obtain ⟨k, cp⟩ := e
    have hokh : (readEntryParts file cp.offset).isOk = true :=
      hok (k, cp) (List.mem_cons_self _ _)
    obtain ⟨pr, hpr⟩ := (except_isOk_iff _).mp hokh
    obtain ⟨lenBuf, dataBuf⟩ := pr
    obtain ⟨_, hp1, _, hp2len, hp1len, _⟩ :=
      readEntryParts_isOk_bounds file cp.offset _ hpr
    dsimp only at hp1 hp2len hp1len
    have hval : be32val lenBuf = dataBuf.length := by rw [hp1, ← hp2len]
    have hkfresh : k ∉ ni.map Prod.fst := by
      intro hk
      rw [List.nodup_append] at hnd
      exact hnd.2.2 hk (by simp)
    have hins : ainsert ni k (CommandPos.mk nf.length (4 + dataBuf.length)) =
        ni ++ [(k, CommandPos.mk nf.length (4 + dataBuf.length))] :=
      ainsert_fresh _ _ _ hkfresh
    have hchnk : (nf ++ (lenBuf ++ dataBuf)).length = nf.length + (4 + dataBuf.length) := by
      simp [List.length_append, hp1len]
    have hnd2 : ((ni ++ [(k, CommandPos.mk nf.length (4 + dataBuf.length))]).map
        Prod.fst ++ rest.map Prod.fst).Nodup := by
      simp only [List.map_append, List.map_cons, List.map_nil]
      have : ni.map Prod.fst ++ [k] ++ rest.map Prod.fst =
          ni.map Prod.fst ++ (k :: rest.map Prod.fst) := by
        simp [List.append_assoc]
      rw [this]
      simpa using hnd
    have hok2 : ∀ e ∈ rest, (readEntryParts file e.2.offset).isOk = true :=
      fun e he => hok e (List.mem_cons_of_mem _ he)
    obtain ⟨added', packed', hrun, hkeys, hlku⟩ :=
      ih (nf ++ (lenBuf ++ dataBuf))
        (ni ++ [(k, CommandPos.mk nf.length (4 + dataBuf.length))]) hok2 hnd2
    refine ⟨(lenBuf ++ dataBuf) ++ added',
      (k, CommandPos.mk nf.length (4 + dataBuf.length)) :: packed', ?_, ?_, ?_⟩
    · simp only [compactGo, hpr]
      rw [hins]
      have harr : nf.length + (4 + dataBuf.length) = (nf ++ (lenBuf ++ dataBuf)).length := by
        omega
      rw [harr, hrun]
      have h1 : nf ++ (lenBuf ++ dataBuf) ++ added' = nf ++ ((lenBuf ++ dataBuf) ++ added') := by
        simp [List.append_assoc]
      have h2 : ni ++ [(k, CommandPos.mk nf.length (4 + dataBuf.length))] ++ packed' =
          ni ++ ((k, CommandPos.mk nf.length (4 + dataBuf.length)) :: packed') := by
        simp [List.append_assoc]
      rw [h1, h2]
    · simp [hkeys]
    · intro k2 cp' hk2
      by_cases hkk : k2 = k
      · subst hkk
        simp [alookup] at hk2
        subst hk2
        refine ⟨cp, by simp [alookup], ?_⟩
        have hfin : nf ++ ((lenBuf ++ dataBuf) ++ added') =
            nf ++ (lenBuf ++ (dataBuf ++ added')) := by
          simp [List.append_assoc]
        rw [hfin, readEntryParts_chunk nf lenBuf dataBuf added' hp1len hval, hpr]
      · simp only [alookup, if_neg hkk] at hk2
        obtain ⟨cp0, hcp0, hread⟩ := hlku k2 cp' hk2
        refine ⟨cp0, by simp [alookup, hkk, hcp0], ?_⟩
        have hfin : nf ++ (lenBuf ++ dataBuf) ++ added' =
            nf ++ ((lenBuf ++ dataBuf) ++ added') := by
          simp [List.append_assoc]
        rw [← hfin, hread]

/-- Under the invariant, `compact` succeeds, resets `uncompacted`, keeps the
key set, and leaves every key's entry bytes observationally unchanged. -/
theorem compact_main (s : RuskStore) (h : StoreInv s) :
    ∃ t, s.compact = .ok t ∧ StoreInv t ∧ ObsEq s t ∧ t.uncompacted = 0 ∧
      t.index.map Prod.fst = s.index.map Prod.fst := by
  obtain ⟨hpos, hnd, hok⟩ := h
  obtain ⟨added, packed, hrun, hkeys, hlku⟩ :=
    compactGo_spec s.file s.index [] [] hok (by simpa using hnd)
  simp only [List.nil_append, List.length_nil] at hrun hkeys hlku
  refine ⟨RuskStore.mk added packed added.length 0, ?_, ?_, ?_, rfl, hkeys⟩
  · unfold RuskStore.compact
    rw [hrun]
  · refine ⟨rfl, by rw [hkeys]; exact hnd, ?_⟩
    intro e he
    have hl : alookup packed e.1 = some e.2 :=
      alookup_of_mem_nodup _ _ _ he (by rw [hkeys]; exact hnd)
    obtain ⟨cp, _, hread⟩ := hlku e.1 e.2 hl
    rw [hread]
    exact hok _ (alookup_mem _ _ _ (by assumption))
  · constructor
    · exact hkeys.symm
    · intro k
      unfold chunkAt
      cases hks : alookup s.index k with
      | none =>
        have hkn : k ∉ s.index.map Prod.fst := by
          intro hk
          rw [← alookup_isSome_iff_mem] at hk
          rw [hks] at hk
          simp at hk
        have : alookup packed k = none :=
          alookup_none_of_not_mem _ _ (by rw [hkeys]; exact hkn)
        simp [this, hks]
      | some cp =>
        have hkm : k ∈ packed.map Prod.fst := by
          rw [hkeys, ← alookup_isSome_iff_mem, hks]
          rfl
        obtain ⟨cp', hcp'⟩ := Option.isSome_iff_exists.mp
          ((alookup_isSome_iff_mem packed k).mpr hkm)
        obtain ⟨cp0, hcp0, hread⟩ := hlku k cp' hcp'
        rw [hcp0] at hks
        cases hks
        simp [hcp', hread]

/-! ### Write-path effects on the invariant and observables -/

theorem mem_ainsert {α : Type} (l : List (String × α)) (k : String) (v : α)
    (e : String × α) (h : e ∈ ainsert l k v) : e = (k, v) ∨ e ∈ l := by
  induction l with
  | nil => simpa [ainsert] using h
  | cons e0 rest ih =>
    obtain ⟨k0, v0⟩ := e0
    by_cases hk : k = k0
    · subst hk
      simp only [ainsert, if_pos rfl] at h
      rcases List.mem_cons.mp h with h | h
      · exact Or.inl h
      · exact Or.inr (List.mem_cons_of_mem _ h)
    · simp only [ainsert, if_neg hk] at h
      rcases List.mem_cons.mp h with h | h
      · exact Or.inr (by simp [h])
      · rcases ih h with h | h
        · exact Or.inl h
        · exact Or.inr (List.mem_cons_of_mem _ h)

theorem mem_aerase {α : Type} (l : List (String × α)) (k : String)
    (e : String × α) (h : e ∈ aerase l k) : e ∈ l := by
  induction l with
  | nil => simpa [aerase] using h
  | cons e0 rest ih =>
    obtain ⟨k0, v0⟩ := e0
    by_cases hk : k = k0
    · subst hk
      simp only [aerase, if_pos rfl] at h
      exact List.mem_cons_of_mem _ h
    · simp only [aerase, if_neg hk] at h
      rcases List.mem_cons.mp h with h | h
      · simp [h]
      · exact List.mem_cons_of_mem _ (ih h)

theorem storeInv_entry_ok (s : RuskStore) (h : StoreInv s) (k : String)
    (cp : CommandPos) (hk : alookup s.index k = some cp) :
    (readEntryParts s.file cp.offset).isOk = true :=
  h.2.2 (k, cp) (alookup_mem _ _ _ hk)

theorem storeInv_setPre (s : RuskStore) (k v : String) (h : StoreInv s) :
    StoreInv (setPre s k v) := by
  obtain ⟨hpos, hnd, hok⟩ := h
  refine ⟨?_, nodup_ainsert _ _ _ hnd, ?_⟩
  · simp [setPre, List.length_append, length_frame, hpos]
  · intro e he
    rcases mem_ainsert _ _ _ _ he with he | he
    · subst he
      have hread := readEntryParts_at_append s.file (payloadBytes (.set k v))
      rw [← hpos] at hread
      rw [except_isOk_iff]
      exact ⟨_, hread⟩
    · obtain ⟨pr, hpr⟩ := (except_isOk_iff _).mp (hok e he)
      rw [except_isOk_iff]
      exact ⟨pr, readEntryParts_append_right _ _ _ _ hpr⟩

theorem storeInv_removePre (s : RuskStore) (k : String) (h : StoreInv s) :
    StoreInv (removePre s k) := by
  obtain ⟨hpos, hnd, hok⟩ := h
  refine ⟨?_, nodup_aerase _ _ hnd, ?_⟩
  · simp [removePre, List.length_append, length_frame, hpos]
  · intro e he
    obtain ⟨pr, hpr⟩ := (except_isOk_iff _).mp (hok e (mem_aerase _ _ _ he))
    rw [except_isOk_iff]
    exact ⟨pr, readEntryParts_append_right _ _ _ _ hpr⟩

theorem chunkAt_setPre_self (s : RuskStore) (k v : String) (hpos : s.current_pos = s.file.length) :
    chunkAt (setPre s k v) k =
      some (.ok (be32 ((payloadBytes (.set k v)).length % 4294967296),
        (payloadBytes (.set k v)).take ((payloadBytes (.set k v)).length % 4294967296))) := by
  unfold chunkAt setPre
  rw [alookup_ainsert_self]
  simp only [Option.map_some']
  rw [hpos]
  rw [readEntryParts_at_append]

theorem chunkAt_setPre_ne (s : RuskStore) (k v k' : String) (h : StoreInv s)
    (hne : k' ≠ k) : chunkAt (setPre s k v) k' = chunkAt s k' := by
  unfold chunkAt setPre
  rw [alookup_ainsert_ne _ _ _ _ hne]
  cases hk : alookup s.index k' with
  | none => rfl
  | some cp =>
    simp only [Option.map_some']
    obtain ⟨pr, hpr⟩ := (except_isOk_iff _).mp (storeInv_entry_ok s h k' cp hk)
    rw [readEntryParts_append_right _ _ _ _ hpr, hpr]

theorem chunkAt_removePre_self (s : RuskStore) (k : String)
    (hnd : (s.index.map Prod.fst).Nodup) : chunkAt (removePre s k) k = none := by
  unfold chunkAt removePre
  rw [alookup_aerase_self _ _ hnd]
  rfl

theorem chunkAt_removePre_ne (s : RuskStore) (k k' : String) (h : StoreInv s)
    (hne : k' ≠ k) : chunkAt (removePre s k) k' = chunkAt s k' := by
  unfold chunkAt removePre
  rw [alookup_aerase_ne _ _ _ hne]
  cases hk : alookup s.index k' with
  | none => rfl
  | some cp =>
    simp only [Option.map_some']
    obtain ⟨pr, hpr⟩ := (except_isOk_iff _).mp (storeInv_entry_ok s h k' cp hk)
    rw [readEntryParts_append_right _ _ _ _ hpr, hpr]

theorem obsEq_refl (s : RuskStore) : ObsEq s s := ⟨rfl, fun _ => rfl⟩

theorem obsEq_trans {s1 s2 s3 : RuskStore} (h1 : ObsEq s1 s2) (h2 : ObsEq s2 s3) :
    ObsEq s1 s3 := ⟨h1.1.trans h2.1, fun k => (h1.2 k).trans (h2.2 k)⟩

theorem obsEq_symm {s1 s2 : RuskStore} (h : ObsEq s1 s2) : ObsEq s2 s1 :=
  ⟨h.1.symm, fun k => (h.2 k).symm⟩

/-- The behaviour of a successful `set` call under the invariant: it returns
Ok, the result satisfies the invariant and is observationally the post-append
state; without a compaction trigger the state is exactly the post-append
state, with a trigger the result is the successful compaction of it. -/
theorem set_run (s : RuskStore) (k v : String) (h : StoreInv s) :
    (s.set k v).1 = .ok () ∧ StoreInv (s.set k v).2 ∧
    ObsEq (setPre s k v) (s.set k v).2 ∧
    ((setPre s k v).uncompacted ≤ COMPACTION_THRESHOLD → (s.set k v).2 = setPre s k v) ∧
    (COMPACTION_THRESHOLD < (setPre s k v).uncompacted →
      (setPre s k v).compact = .ok (s.set k v).2 ∧ (s.set k v).2.uncompacted = 0) := by
  have hpre := storeInv_setPre s k v h
  rw [set_eq]
  by_cases ht : (setPre s k v).uncompacted > COMPACTION_THRESHOLD
  · obtain ⟨t, hcomp, hinvt, hobs, hunc, _⟩ := compact_main _ hpre
    rw [if_pos ht, hcomp]
    dsimp only
    exact ⟨rfl, hinvt, hobs, fun hle => absurd ht (by omega), fun _ => ⟨rfl, hunc⟩⟩
  · rw [if_neg ht]
    exact ⟨rfl, hpre, obsEq_refl _, fun _ => rfl, fun hgt => absurd hgt ht⟩

/-- The behaviour of a successful `remove` call on a live key. -/
theorem remove_run (s : RuskStore) (k : String) (h : StoreInv s)
    (hk : (alookup s.index k).isNone = false) :
    (s.remove k).1 = .ok () ∧ StoreInv (s.remove k).2 ∧
    ObsEq (removePre s k) (s.remove k).2 ∧
    ((removePre s k).uncompacted ≤ COMPACTION_THRESHOLD → (s.remove k).2 = removePre s k) ∧
    (COMPACTION_THRESHOLD < (removePre s k).uncompacted →
      (removePre s k).compact = .ok (s.remove k).2 ∧ (s.remove k).2.uncompacted = 0) := by
  have hpre := storeInv_removePre s k h
  rw [remove_eq, hk]
  simp only [Bool.false_eq_true, if_false]
  by_cases ht : (removePre s k).uncompacted > COMPACTION_THRESHOLD
  · obtain ⟨t, hcomp, hinvt, hobs, hunc, _⟩ := compact_main _ hpre
    rw [if_pos ht, hcomp]
    dsimp only
    exact ⟨rfl, hinvt, hobs, fun hle => absurd ht (by omega), fun _ => ⟨rfl, hunc⟩⟩
  · rw [if_neg ht]
    exact ⟨rfl, hpre, obsEq_refl _, fun _ => rfl, fun hgt => absurd hgt ht⟩

theorem remove_missing (s : RuskStore) (k : String)
    (hk : (alookup s.index k).isNone = true) :
    s.remove k = (.error .keyNotFound, s) := by
  rw [remove_eq, hk, if_pos rfl]

/-- `get` as a function of the key's chunk. -/
theorem get_eq_match_chunk (s : RuskStore) (k : String) :
    s.get k = (match chunkAt s k with
      | none => .ok none
      | some (.error e) => .error e
      | some (.ok (_, dataBuf)) =>
        match parseCommand dataBuf with
        | none => .error .serdeError
        | some (.set _ v) => .ok (some v)
        | some (.remove _) => .error .unexpectedCommand) := by
  unfold RuskStore.get chunkAt
  cases alookup s.index k with
  | none => rfl
  | some cp =>
    simp only [Option.map_some']
    cases readEntryParts s.file cp.offset with
    | error e => rfl
    | ok pr =>
      obtain ⟨lb, db⟩ := pr
      cases parseCommand db with
      | none => rfl
      | some c => cases c <;> rfl

/-! ### Invariant preservation along runs, and observational bisimulation -/

theorem storeInv_stepOp (s : RuskStore) (op : Op) (h : StoreInv s) :
    StoreInv (stepOp s op) := by
  cases op with
  | setOp k v => exact (set_run s k v h).2.1
  | getOp k => exact h
  | removeOp k =>
    cases hk : (alookup s.index k).isNone with
    | true =>
      have := remove_missing s k hk
      simp only [stepOp, this]
      exact h
    | false => exact (remove_run s k h hk).2.1
  | compactOp =>
    obtain ⟨t, hcomp, hinvt, _, _, _⟩ := compact_main s h
    simp only [stepOp, hcomp]
    exact hinvt

theorem storeInv_runState (s : RuskStore) (P : List Op) (h : StoreInv s) :
    StoreInv (runState s P) := by
  induction P generalizing s with
  | nil => exact h
  | cons op rest ih => exact ih _ (storeInv_stepOp s op h)

theorem mapfst_ainsert_congr {α β : Type} (l1 : List (String × α)) (l2 : List (String × β))
    (k : String) (v1 : α) (v2 : β) (h : l1.map Prod.fst = l2.map Prod.fst) :
    (ainsert l1 k v1).map Prod.fst = (ainsert l2 k v2).map Prod.fst := by
  by_cases hm : k ∈ l1.map Prod.fst
  · rw [mapfst_ainsert_mem _ _ _ hm, mapfst_ainsert_mem _ _ _ (h ▸ hm), h]
  · rw [mapfst_ainsert_not_mem _ _ _ hm, mapfst_ainsert_not_mem _ _ _ (h ▸ hm), h]

theorem obsEq_setPre (s1 s2 : RuskStore) (k v : String) (h1 : StoreInv s1)
    (h2 : StoreInv s2) (hobs : ObsEq s1 s2) :
    ObsEq (setPre s1 k v) (setPre s2 k v) := by
  constructor
  · exact mapfst_ainsert_congr _ _ _ _ _ hobs.1
  · intro k'
    by_cases hk : k' = k
    · subst hk
      rw [chunkAt_setPre_self _ _ _ h1.1, chunkAt_setPre_self _ _ _ h2.1]
    · rw [chunkAt_setPre_ne _ _ _ _ h1 hk, chunkAt_setPre_ne _ _ _ _ h2 hk]
      exact hobs.2 k'

theorem obsEq_removePre (s1 s2 : RuskStore) (k : String) (h1 : StoreInv s1)
    (h2 : StoreInv s2) (hobs : ObsEq s1 s2) :
    ObsEq (removePre s1 k) (removePre s2 k) := by
  constructor
  · show (aerase s1.index k).map Prod.fst = (aerase s2.index k).map Prod.fst
    rw [mapfst_aerase, mapfst_aerase, hobs.1]
  · intro k'
    by_cases hk : k' = k
    · subst hk
      rw [chunkAt_removePre_self _ _ h1.2.1, chunkAt_removePre_self _ _ h2.2.1]
    · rw [chunkAt_removePre_ne _ _ _ h1 hk, chunkAt_removePre_ne _ _ _ h2 hk]
      exact hobs.2 k'

theorem obsEq_stepOp (s1 s2 : RuskStore) (op : Op) (h1 : StoreInv s1)
    (h2 : StoreInv s2) (hobs : ObsEq s1 s2) :
    ObsEq (stepOp s1 op) (stepOp s2 op) := by
  cases op with
  | setOp k v =>
    have r1 := set_run s1 k v h1
    have r2 := set_run s2 k v h2
    exact obsEq_trans (obsEq_symm r1.2.2.1)
      (obsEq_trans (obsEq_setPre s1 s2 k v h1 h2 hobs) r2.2.2.1)
  | getOp k => exact hobs
  | removeOp k =>
    have hnn := isNone_eq_of_obs s1 s2 k hobs
    cases hk : (alookup s1.index k).isNone with
    | true =>
      have hk2 : (alookup s2.index k).isNone = true := by rw [← hnn, hk]
      simp only [stepOp, remove_missing s1 k hk, remove_missing s2 k hk2]
      exact hobs
    | false =>
      have hk2 : (alookup s2.index k).isNone = false := by rw [← hnn, hk]
      have r1 := remove_run s1 k h1 hk
      have r2 := remove_run s2 k h2 hk2
      exact obsEq_trans (obsEq_symm r1.2.2.1)
        (obsEq_trans (obsEq_removePre s1 s2 k h1 h2 hobs) r2.2.2.1)
  | compactOp =>
    obtain ⟨t1, hc1, _, ho1, _, _⟩ := compact_main s1 h1
    obtain ⟨t2, hc2, _, ho2, _, _⟩ := compact_main s2 h2
    simp only [stepOp, hc1, hc2]
    exact obsEq_trans (obsEq_symm ho1) (obsEq_trans hobs ho2)

theorem obsOf_congr (s1 s2 : RuskStore) (op : Op) (h1 : StoreInv s1)
    (h2 : StoreInv s2) (hobs : ObsEq s1 s2) : obsOf s1 op = obsOf s2 op := by
  cases op with
  | setOp k v => rfl
  | compactOp => rfl
  | getOp k =>
    simp only [obsOf]
    rw [get_eq_of_chunk s1 s2 k (hobs.2 k)]
  | removeOp k =>
    have hnn := isNone_eq_of_obs s1 s2 k hobs
    cases hk : (alookup s1.index k).isNone with
    | true =>
      have hk2 : (alookup s2.index k).isNone = true := by rw [← hnn, hk]
      simp only [obsOf, remove_missing s1 k hk, remove_missing s2 k hk2]
    | false =>
      have hk2 : (alookup s2.index k).isNone = false := by rw [← hnn, hk]
      simp only [obsOf, (remove_run s1 k h1 hk).1, (remove_run s2 k h2 hk2).1]

theorem runObs_congr (P : List Op) : ∀ (s1 s2 : RuskStore), StoreInv s1 → StoreInv s2 →
    ObsEq s1 s2 → runObs s1 P = runObs s2 P := by
  induction P with
  | nil => intro _ _ _ _ _; rfl
  | cons op rest ih =>
    intro s1 s2 h1 h2 hobs
    simp only [runObs]
    rw [obsOf_congr s1 s2 op h1 h2 hobs]
    rw [ih (stepOp s1 op) (stepOp s2 op) (storeInv_stepOp s1 op h1)
      (storeInv_stepOp s2 op h2) (obsEq_stepOp s1 s2 op h1 h2 hobs)]

/-! ### The log as a list of commands, and replay correctness -/

/-- The on-disk footprint of one command's entry (header + payload). -/
def entryLenC (c : Command) : Nat := 4 + (payloadBytes c).length

/-- The byte content of a log holding the given commands in order. -/
def logBytes : List Command → List Nat
  | [] => []
  | c :: cs => frame (payloadBytes c) ++ logBytes cs

/-- The index resulting from folding the commands of a log over an
accumulator, tracking entry positions — the shared shape of the live index
maintained by `set`/`remove` and of the index rebuilt by `replay_log`. -/
def idxGo : List Command → Nat → List (String × CommandPos) → List (String × CommandPos)
  | [], _, acc => acc
  | .set k v :: cs, pos, acc =>
    idxGo cs (pos + entryLenC (.set k v))
      (ainsert acc k (CommandPos.mk pos (entryLenC (.set k v))))
  | .remove k :: cs, pos, acc =>
    idxGo cs (pos + entryLenC (.remove k)) (aerase acc k)

/-- The store's file is the log of `cs`, its index is the fold of `cs`, and
`current_pos` is the file length; all commands fit the u32 header. -/
def LogRep (s : RuskStore) (cs : List Command) : Prop :=
  (∀ c ∈ cs, SmallCmd c) ∧ s.file = logBytes cs ∧ s.index = idxGo cs 0 [] ∧
  s.current_pos = (logBytes cs).length

theorem logBytes_append (a b : List Command) :
    logBytes (a ++ b) = logBytes a ++ logBytes b := by
  induction a with
  | nil => simp [logBytes]
  | cons c cs ih => simp [logBytes, ih, List.append_assoc]

theorem length_frame_payload (c : Command) :
    (frame (payloadBytes c)).length = entryLenC c := by
  rw [length_frame]; rfl

theorem idxGo_append_set (cs : List Command) (k v : String) :
    ∀ pos acc, idxGo (cs ++ [.set k v]) pos acc =
      ainsert (idxGo cs pos acc) k
        (CommandPos.mk (pos + (logBytes cs).length) (entryLenC (.set k v))) := by
  induction cs with
  | nil => intro pos acc; simp [idxGo, logBytes]
  | cons c0 cs ih =>
    intro pos acc
    cases c0 with
    | set k0 v0 =>
      simp only [List.cons_append, idxGo, List.append_eq]
      rw [ih]
      simp only [logBytes, List.length_append, length_frame_payload]
      have harith : pos + entryLenC (.set k0 v0) + (logBytes cs).length =
          pos + (entryLenC (.set k0 v0) + (logBytes cs).length) := by omega
      rw [harith]
    | remove k0 =>
      simp only [List.cons_append, idxGo, List.append_eq]
      rw [ih]
      simp only [logBytes, List.length_append, length_frame_payload]
      have harith : pos + entryLenC (.remove k0) + (logBytes cs).length =
          pos + (entryLenC (.remove k0) + (logBytes cs).length) := by omega
      rw [harith]

theorem idxGo_append_remove (cs : List Command) (k : String) :
    ∀ pos acc, idxGo (cs ++ [.remove k]) pos acc = aerase (idxGo cs pos acc) k := by
  induction cs with
  | nil => intro pos acc; simp [idxGo, logBytes]
  | cons c0 cs ih =>
    intro pos acc
    cases c0 with
    | set k0 v0 =>
      simp only [List.cons_append, idxGo, List.append_eq]
      rw [ih]
    | remove k0 =>
      simp only [List.cons_append, idxGo, List.append_eq]
      rw [ih]

theorem nodup_idxGo (cs : List Command) :
    ∀ pos acc, (acc.map Prod.fst).Nodup → ((idxGo cs pos acc).map Prod.fst).Nodup := by
  induction cs with
  | nil => intro _ _ h; exact h
  | cons c cs ih =>
    intro pos acc h
    cases c with
    | set k v => exact ih _ _ (nodup_ainsert _ _ _ h)
    | remove k => exact ih _ _ (nodup_aerase _ _ h)

/-- Every entry of the rebuilt index points at the framed Set entry of its
key, which decodes back to that Set command. -/
theorem idx_sound (cs : List Command) (hs : ∀ c ∈ cs, SmallCmd c) :
    ∀ e ∈ idxGo cs 0 [], ∃ v, SmallCmd (.set e.1 v) ∧
      e.2.length = entryLenC (.set e.1 v) ∧
      readEntryParts (logBytes cs) e.2.offset =
        .ok (be32 (payloadBytes (.set e.1 v)).length, payloadBytes (.set e.1 v)) := by
  induction cs using List.reverseRecOn with
  | nil => intro e he; simp [idxGo] at he
  | append_singleton cs c ih =>
    intro e he
    have hs0 : ∀ c0 ∈ cs, SmallCmd c0 := fun c0 hc0 => hs c0 (by simp [hc0])
    have hsc : SmallCmd c := hs c (by simp)
    cases c with
    | set k v =>
      rw [idxGo_append_set] at he
      simp only [Nat.zero_add] at he
      rcases mem_ainsert _ _ _ _ he with he | he
      · subst he
        refine ⟨v, hsc, rfl, ?_⟩
        rw [logBytes_append]
        simp only [logBytes, List.append_nil]
        exact readEntryParts_at_append_small _ _ hsc
      · obtain ⟨v0, hv0, hlen, hread⟩ := ih hs0 e he
        refine ⟨v0, hv0, hlen, ?_⟩
        rw [logBytes_append]
        exact readEntryParts_append_right _ _ _ _ hread
    | remove k =>
      rw [idxGo_append_remove] at he
      obtain ⟨v0, hv0, hlen, hread⟩ := ih hs0 e (mem_aerase _ _ _ he)
      refine ⟨v0, hv0, hlen, ?_⟩
      rw [logBytes_append]
      exact readEntryParts_append_right _ _ _ _ hread

theorem logRep_storeInv (s : RuskStore) (cs : List Command) (h : LogRep s cs) :
    StoreInv s := by
  obtain ⟨hs, hf, hi, hp⟩ := h
  refine ⟨by rw [hp, hf], by rw [hi]; exact nodup_idxGo cs 0 [] (by simp), ?_⟩
  intro e he
  rw [hi] at he
  obtain ⟨v, _, _, hread⟩ := idx_sound cs hs e he
  rw [hf, except_isOk_iff]
  exact ⟨_, hread⟩

theorem logRep_setPre (s : RuskStore) (cs : List Command) (k v : String)
    (h : LogRep s cs) (hsm : SmallCmd (.set k v)) :
    LogRep (setPre s k v) (cs ++ [.set k v]) := by
  obtain ⟨hs, hf, hi, hp⟩ := h
  refine ⟨?_, ?_, ?_, ?_⟩
  · intro c hc
    rcases List.mem_append.mp hc with hc | hc
    · exact hs c hc
    · simp only [List.mem_singleton] at hc; subst hc; exact hsm
  · show s.file ++ frame (payloadBytes (.set k v)) = _
    rw [logBytes_append, hf]
    simp [logBytes]
  · show ainsert s.index k
        (CommandPos.mk s.current_pos (4 + (payloadBytes (.set k v)).length)) = _
    rw [idxGo_append_set]
    simp only [Nat.zero_add]
    rw [← hi, ← hp]
    rfl
  · show s.current_pos + (4 + (payloadBytes (.set k v)).length) = _
    rw [logBytes_append, hp]
    simp [logBytes, length_frame_payload, entryLenC]

theorem logRep_removePre (s : RuskStore) (cs : List Command) (k : String)
    (h : LogRep s cs) (hsm : SmallCmd (.remove k)) :
    LogRep (removePre s k) (cs ++ [.remove k]) := by
  obtain ⟨hs, hf, hi, hp⟩ := h
  refine ⟨?_, ?_, ?_, ?_⟩
  · intro c hc
    rcases List.mem_append.mp hc with hc | hc
    · exact hs c hc
    · simp only [List.mem_singleton] at hc; subst hc; exact hsm
  · show s.file ++ frame (payloadBytes (.remove k)) = _
    rw [logBytes_append, hf]
    simp [logBytes]
  · show aerase s.index k = _
    rw [idxGo_append_remove, ← hi]
  · show s.current_pos + (4 + (payloadBytes (.remove k)).length) = _
    rw [logBytes_append, hp]
    simp [logBytes, length_frame_payload, entryLenC]

theorem compactGo_logrep (file : List Nat) (entries : List (String × CommandPos)) :
    (∀ e ∈ entries, ∃ v, SmallCmd (.set e.1 v) ∧
      e.2.length = entryLenC (.set e.1 v) ∧
      readEntryParts file e.2.offset =
        .ok (be32 (payloadBytes (.set e.1 v)).length, payloadBytes (.set e.1 v))) →
    ∀ (nf : List Nat) (ni : List (String × CommandPos)),
      ∃ cs2, (∀ c ∈ cs2, SmallCmd c) ∧
        compactGo file entries nf ni nf.length =
          .ok (nf ++ logBytes cs2, idxGo cs2 nf.length ni, (nf ++ logBytes cs2).length) := by
  induction entries with
  | nil =>
    intro _ nf ni
    exact ⟨[], by simp, by simp [compactGo, logBytes, idxGo]⟩
  | cons e rest ih =>
    intro hsnd nf ni
    obtain ⟨k, cp⟩ := e
    obtain ⟨v, hsm, hlen, hread⟩ := hsnd (k, cp) (List.mem_cons_self _ _)
    have hsnd2 : ∀ e ∈ rest, ∃ v, SmallCmd (.set e.1 v) ∧
        e.2.length = entryLenC (.set e.1 v) ∧
        readEntryParts file e.2.offset =
          .ok (be32 (payloadBytes (.set e.1 v)).length, payloadBytes (.set e.1 v)) :=
      fun e he => hsnd e (List.mem_cons_of_mem _ he)
    obtain ⟨cs2, hcs2sm, hrun⟩ :=
      ih hsnd2 (nf ++ (be32 (payloadBytes (.set k v)).length ++ payloadBytes (.set k v)))
        (ainsert ni k (CommandPos.mk nf.length (4 + (payloadBytes (.set k v)).length)))
    refine ⟨.set k v :: cs2, ?_, ?_⟩
    · intro c hc
      rcases List.mem_cons.mp hc with hc | hc
      · subst hc; exact hsm
      · exact hcs2sm c hc
    · simp only [compactGo, hread]
      have harith : nf.length + (4 + (payloadBytes (.set k v)).length) =
          (nf ++ (be32 (payloadBytes (.set k v)).length ++ payloadBytes (.set k v))).length := by
        simp [List.length_append, length_be32]
      rw [harith, hrun]
      have hframe : be32 (payloadBytes (.set k v)).length ++ payloadBytes (.set k v) =
          frame (payloadBytes (.set k v)) := by
        unfold frame
        rw [Nat.mod_eq_of_lt hsm]
      have hfile : nf ++ (be32 (payloadBytes (.set k v)).length ++ payloadBytes (.set k v)) ++
          logBytes cs2 = nf ++ logBytes (.set k v :: cs2) := by
        rw [hframe]
        simp [logBytes, List.append_assoc]
      rw [hfile]
      have hidx : idxGo cs2
          (nf ++ (be32 (payloadBytes (.set k v)).length ++ payloadBytes (.set k v))).length
          (ainsert ni k (CommandPos.mk nf.length (4 + (payloadBytes (.set k v)).length))) =
          idxGo (.set k v :: cs2) nf.length ni := by
        simp only [idxGo, entryLenC]
        have : (nf ++ (be32 (payloadBytes (.set k v)).length ++
            payloadBytes (.set k v))).length = nf.length + (4 + (payloadBytes (.set k v)).length) := by
          simp [List.length_append, length_be32]
        rw [this]
      rw [hidx]

theorem logRep_compact (s : RuskStore) (cs : List Command) (t : RuskStore)
    (h : LogRep s cs) (hc : s.compact = .ok t) : ∃ cs2, LogRep t cs2 := by
  obtain ⟨hs, hf, hi, hp⟩ := h
  have hsnd : ∀ e ∈ s.index, ∃ v, SmallCmd (.set e.1 v) ∧
      e.2.length = entryLenC (.set e.1 v) ∧
      readEntryParts s.file e.2.offset =
        .ok (be32 (payloadBytes (.set e.1 v)).length, payloadBytes (.set e.1 v)) := by
    intro e he
    rw [hi] at he
    obtain ⟨v, hv, hl, hr⟩ := idx_sound cs hs e he
    exact ⟨v, hv, hl, by rw [hf]; exact hr⟩
  obtain ⟨cs2, hcs2sm, hrun⟩ := compactGo_logrep s.file s.index hsnd [] []
  simp only [List.length_nil, List.nil_append] at hrun
  unfold RuskStore.compact at hc
  rw [hrun] at hc
  simp only [Except.ok.injEq] at hc
  subst hc
  exact ⟨cs2, hcs2sm, rfl, rfl, rfl⟩

theorem logRep_stepOp (s : RuskStore) (cs : List Command) (op : Op)
    (h : LogRep s cs) (hop : SmallOp op) : ∃ cs2, LogRep (stepOp s op) cs2 := by
  have hinv := logRep_storeInv s cs h
  cases op with
  | getOp k => exact ⟨cs, h⟩
  | setOp k v =>
    have hr := set_run s k v hinv
    have hpre := logRep_setPre s cs k v h hop
    by_cases ht : (setPre s k v).uncompacted ≤ COMPACTION_THRESHOLD
    · have hst : (s.set k v).2 = setPre s k v := hr.2.2.2.1 ht
      exact ⟨cs ++ [.set k v], by rw [show stepOp s (.setOp k v) = (s.set k v).2 from rfl, hst]; exact hpre⟩
    · have hcomp := (hr.2.2.2.2 (by omega)).1
      exact logRep_compact _ _ _ hpre hcomp
  | removeOp k =>
    cases hk : (alookup s.index k).isNone with
    | true =>
      have := remove_missing s k hk
      exact ⟨cs, by simp only [stepOp, this]; exact h⟩
    | false =>
      have hr := remove_run s k hinv hk
      have hpre := logRep_removePre s cs k h hop
      by_cases ht : (removePre s k).uncompacted ≤ COMPACTION_THRESHOLD
      · have hst : (s.remove k).2 = removePre s k := hr.2.2.2.1 ht
        exact ⟨cs ++ [.remove k],
          by rw [show stepOp s (.removeOp k) = (s.remove k).2 from rfl, hst]; exact hpre⟩
      · have hcomp := (hr.2.2.2.2 (by omega)).1
        exact logRep_compact _ _ _ hpre hcomp
  | compactOp =>
    obtain ⟨t, hcomp, _, _, _, _⟩ := compact_main s hinv
    obtain ⟨cs2, hrep⟩ := logRep_compact s cs t h hcomp
    exact ⟨cs2, by simp only [stepOp, hcomp]; exact hrep⟩

theorem logRep_store0 : LogRep store0 [] := ⟨by simp, rfl, rfl, rfl⟩

theorem logRep_runState (P : List Op) : ∀ (s : RuskStore) (cs : List Command),
    LogRep s cs → SmallOps P → ∃ cs2, LogRep (runState s P) cs2 := by
  induction P with
  | nil => intro s cs h _; exact ⟨cs, h⟩
  | cons op rest ih =>
    intro s cs h hP
    obtain ⟨cs1, h1⟩ := logRep_stepOp s cs op h (hP op (by simp))
    exact ih _ cs1 h1 (fun o ho => hP o (by simp [ho]))

/-! ### Replay of a well-formed log -/

theorem replayGo_step (fuel : Nat) (rest : List Nat) (pos : Nat) (st : ReplayState)
    (lenBuf dataBuf : List Nat) (c : Command)
    (hread : readEntryParts rest 0 = .ok (lenBuf, dataBuf))
    (hparse : parseCommand dataBuf = some c) :
    replayGo (fuel + 1) rest pos st =
      replayGo fuel (rest.drop (4 + dataBuf.length)) (pos + (4 + dataBuf.length))
        (replayStep c pos (4 + dataBuf.length) st) := by
  obtain ⟨hb, hp1, hp2, hlen2, hlen1, hbound⟩ := readEntryParts_isOk_bounds rest 0 _ hread
  dsimp only at hp1 hp2 hlen2 hlen1 hbound
  rw [List.drop_zero] at hp1 hp2 hlen2
  have hdl := List.length_drop 4 rest
  have hne : rest.isEmpty = false := by
    cases rest with
    | nil => simp at hb
    | cons a l => rfl
  simp only [replayGo, hne, Bool.false_eq_true, if_false]
  rw [if_neg (by omega : ¬ rest.length < 4)]
  rw [← hlen2] at hp2 ⊢
  rw [if_neg (by omega : ¬ (rest.drop 4).length < dataBuf.length)]
  rw [← hp2, hparse]

theorem replayGo_logBytes (cs : List Command) (hs : ∀ c ∈ cs, SmallCmd c) :
    ∀ fuel pos st, (logBytes cs).length < fuel →
      ∃ st2, replayGo fuel (logBytes cs) pos st = .ok (st2, pos + (logBytes cs).length) ∧
        st2.index = idxGo cs pos st.index := by
  induction cs with
  | nil =>
    intro fuel pos st hf
    match fuel, hf with
    | f + 1, _ =>
      refine ⟨st, ?_, rfl⟩
      simp [replayGo, logBytes]
  | cons c cs ih =>
    intro fuel pos st hf
    have hsc : SmallCmd c := hs c (by simp)
    have hs0 : ∀ c0 ∈ cs, SmallCmd c0 := fun c0 hc0 => hs c0 (by simp [hc0])
    have hlenlog : (logBytes (c :: cs)).length =
        (4 + (payloadBytes c).length) + (logBytes cs).length := by
      simp [logBytes, List.length_append, length_frame_payload, entryLenC]
    match fuel, hf with
    | f + 1, hf =>
      have hshape : logBytes (c :: cs) =
          be32 (payloadBytes c).length ++ ((payloadBytes c) ++ logBytes cs) := by
        show frame (payloadBytes c) ++ logBytes cs = _
        unfold frame
        rw [Nat.mod_eq_of_lt hsc, List.append_assoc]
      have hread : readEntryParts (logBytes (c :: cs)) 0 =
          .ok (be32 (payloadBytes c).length, payloadBytes c) := by
        rw [hshape]
        have := readEntryParts_chunk [] (be32 (payloadBytes c).length)
          (payloadBytes c) (logBytes cs) (length_be32 _)
          (by rw [be32val_be32, Nat.mod_eq_of_lt hsc])
        simpa using this
      have hstep := replayGo_step f (logBytes (c :: cs)) pos st _ _ c hread
        (parseCommand_round c)
      rw [hstep]
      have hdrop : (logBytes (c :: cs)).drop (4 + (payloadBytes c).length) = logBytes cs := by
        show (frame (payloadBytes c) ++ logBytes cs).drop (4 + (payloadBytes c).length) = _
        exact drop_append_exact _ _ _ (length_frame _)
      rw [hdrop]
      obtain ⟨st2, hrun, hidx⟩ := ih hs0 f (pos + (4 + (payloadBytes c).length))
        (replayStep c pos (4 + (payloadBytes c).length) st) (by omega)
      refine ⟨st2, ?_, ?_⟩
      · rw [hrun, hlenlog]
        have : pos + (4 + (payloadBytes c).length) + (logBytes cs).length =
            pos + ((4 + (payloadBytes c).length) + (logBytes cs).length) := by omega
        rw [this]
      · rw [hidx]
        cases c with
        | set k v => rfl
        | remove k => rfl

theorem openStore_logBytes (cs : List Command) (hs : ∀ c ∈ cs, SmallCmd c) :
    ∃ u, openStore (logBytes cs) =
      .ok (RuskStore.mk (logBytes cs) (idxGo cs 0 []) (logBytes cs).length u) := by
  obtain ⟨st2, hrun, hidx⟩ := replayGo_logBytes cs hs ((logBytes cs).length + 1) 0
    (ReplayState.mk [] [] 0) (by omega)
  refine ⟨st2.uncompacted, ?_⟩
  unfold openStore replayLog
  rw [hrun]
  simp only [Nat.zero_add, Except.ok.injEq]
  rw [← hidx]

/-! ### Replay never runs past the file -/

theorem replayGo_pos_le : ∀ (fuel : Nat) (rest : List Nat) (pos : Nat) (st : ReplayState)
    (st2 : ReplayState) (pos2 : Nat), replayGo fuel rest pos st = .ok (st2, pos2) →
    pos2 ≤ pos + rest.length := by
  intro fuel
  induction fuel with
  | zero =>
    intro rest pos st st2 pos2 h
    simp only [replayGo, Except.ok.injEq, Prod.mk.injEq] at h
    omega
  | succ f ih =>
    intro rest pos st st2 pos2 h
    simp only [replayGo] at h
    by_cases he : rest.isEmpty = true
    · rw [if_pos he] at h
      simp only [Except.ok.injEq, Prod.mk.injEq] at h
      omega
    · rw [if_neg he] at h
      by_cases h4 : rest.length < 4
      · rw [if_pos h4] at h
        simp only [Except.ok.injEq, Prod.mk.injEq] at h
        omega
      · rw [if_neg h4] at h
        by_cases hd : (rest.drop 4).length < be32val (rest.take 4)
        · rw [if_pos hd] at h
          cases h
        · rw [if_neg hd] at h
          cases hp : parseCommand ((rest.drop 4).take (be32val (rest.take 4))) with
          | none => rw [hp] at h; cases h
          | some c =>
            rw [hp] at h
            have := ih _ _ _ _ _ h
            have hdl := List.length_drop 4 rest
            have hdl2 := List.length_drop (4 + be32val (rest.take 4)) rest
            omega

theorem openStore_pos_le (f : List Nat) (s : RuskStore) (h : openStore f = .ok s) :
    s.current_pos ≤ f.length ∧ s.file = f := by
  unfold openStore replayLog at h
  cases hr : replayGo (f.length + 1) f 0 (ReplayState.mk [] [] 0) with
  | error e => rw [hr] at h; cases h
  | ok pr =>
    obtain ⟨st2, pos2⟩ := pr
    rw [hr] at h
    simp only [Except.ok.injEq] at h
    subst h
    have := replayGo_pos_le _ _ _ _ _ _ hr
    exact ⟨by simpa using this, rfl⟩

/-! ### Auxiliary observations used by the claims -/

theorem chunkAt_none_iff (s : RuskStore) (k : String) :
    chunkAt s k = none ↔ alookup s.index k = none := by
  unfold chunkAt
  cases alookup s.index k <;> simp

theorem chunkAt_isSome_lookup (s : RuskStore) (k : String)
    (x : Except RuskError (List Nat × List Nat)) (h : chunkAt s k = some x) :
    (alookup s.index k).isNone = false := by
  unfold chunkAt at h
  cases hl : alookup s.index k with
  | none => rw [hl] at h; simp at h
  | some cp => rfl

theorem chunkAt_setPre_self_small (s : RuskStore) (k v : String)
    (hpos : s.current_pos = s.file.length) (hsm : SmallCmd (.set k v)) :
    chunkAt (setPre s k v) k =
      some (.ok (be32 (payloadBytes (.set k v)).length, payloadBytes (.set k v))) := by
  rw [chunkAt_setPre_self s k v hpos, Nat.mod_eq_of_lt hsm,
    List.take_of_length_le (le_refl _)]

/-- After a successful small `set`, `get` on that key returns the new value. -/
theorem get_after_set (s : RuskStore) (k v : String) (h : StoreInv s)
    (hsm : SmallCmd (.set k v)) : (s.set k v).2.get k = .ok (some v) := by
  have r := set_run s k v h
  have hchunk : chunkAt (s.set k v).2 k =
      some (.ok (be32 (payloadBytes (.set k v)).length, payloadBytes (.set k v))) := by
    rw [← r.2.2.1.2 k]
    exact chunkAt_setPre_self_small s k v h.1 hsm
  rw [get_eq_match_chunk, hchunk]
  simp only [parseCommand_round (.set k v)]

theorem get_congr_fi (s1 s2 : RuskStore) (hf : s1.file = s2.file)
    (hi : s1.index = s2.index) (k : String) : s1.get k = s2.get k := by
  obtain ⟨f1, i1, p1, u1⟩ := s1
  obtain ⟨f2, i2, p2, u2⟩ := s2
  cases hf
  cases hi
  rfl

/-- Decoding the log entry stored at a given offset, as `get`'s hit path
does: read the framed entry, then deserialize the payload. -/
def decodeAt (file : List Nat) (off : Nat) : Option Command :=
  match readEntryParts file off with
  | .ok (_, dataBuf) => parseCommand dataBuf
  | .error _ => none

/-! ### A value whose serialized Set entry overflows the u32 length header -/

/-- A value of 2^32 − 30 characters `a`; together with key `"k"` its Set
payload is exactly 2^32 bytes long, so `data.len() as u32` truncates the
header to 0. -/
def bigA : String := String.mk (List.replicate 4294967266 'a')

theorem escChar_a : escChar 'a' = [97] := by decide

theorem escList_replicate_a (n : Nat) :
    escList (List.replicate n 'a') = List.replicate n 97 := by
  induction n with
  | zero => rfl
  | succ m ih =>
    simp only [List.replicate_succ, escList, escChar_a, ih]
    rfl

theorem bigA_payload_len : (payloadBytes (.set "k" bigA)).length = 4294967296 := by
  show (setKeyHead ++ jstr "k" ++ valueHead ++ jstr bigA ++ closeBB).length = 4294967296
  have h1 : (jstr "k").length = 3 := by decide
  have h2 : (jstr bigA).length = 4294967268 := by
    show (34 :: (escList bigA.data ++ [34])).length = 4294967268
    have hdata : bigA.data = List.replicate 4294967266 'a' := rfl
    rw [hdata, escList_replicate_a, List.length_cons, List.length_append,
      List.length_replicate]
    rfl
  simp only [List.length_append, h1, h2]
  rfl

theorem big_set_eq : store0.set "k" bigA = (.ok (), setPre store0 "k" bigA) := by
  rw [set_eq]
  rw [if_neg]
  show ¬ store0.uncompacted + displacedLen store0 "k" > COMPACTION_THRESHOLD
  decide

theorem big_get_serde : (store0.set "k" bigA).2.get "k" = .error .serdeError := by
  rw [big_set_eq]
  show (setPre store0 "k" bigA).get "k" = _
  rw [get_eq_match_chunk, chunkAt_setPre_self store0 "k" bigA rfl]
  rw [bigA_payload_len]
  simp only [Nat.mod_self, List.take_zero]
  rfl

theorem big_run_eq : runState store0 [Op.setOp "k" bigA] = setPre store0 "k" bigA := by
  show (store0.set "k" bigA).2 = _
  rw [big_set_eq]

theorem big_lookup : alookup (runState store0 [Op.setOp "k" bigA]).index "k" =
    some (CommandPos.mk 0 4294967300) := by
  rw [big_run_eq]
  show alookup (ainsert store0.index "k"
    (CommandPos.mk store0.current_pos (4 + (payloadBytes (.set "k" bigA)).length))) "k" = _
  rw [alookup_ainsert_self, bigA_payload_len]
  rfl

theorem decodeAt_ok (file : List Nat) (off : Nat) (lenBuf dataBuf : List Nat)
    (h : readEntryParts file off = .ok (lenBuf, dataBuf)) :
    decodeAt file off = parseCommand dataBuf := by
  unfold decodeAt
  rw [h]

theorem big_decode_none : decodeAt (runState store0 [Op.setOp "k" bigA]).file 0 = none := by
  rw [big_run_eq]
  show decodeAt (store0.file ++ frame (payloadBytes (.set "k" bigA))) 0 = none
  have hread := readEntryParts_at_append store0.file (payloadBytes (.set "k" bigA))
  rw [bigA_payload_len, Nat.mod_self, List.take_zero] at hread
  have hlen0 : store0.file.length = 0 := rfl
  rw [hlen0] at hread
  rw [decodeAt_ok _ 0 _ _ hread]
  rfl

theorem replayGo_head_serde (fuel : Nat) (rest : List Nat) (pos : Nat) (st : ReplayState)
    (lenBuf dataBuf : List Nat)
    (hread : readEntryParts rest 0 = .ok (lenBuf, dataBuf))
    (hparse : parseCommand dataBuf = none) :
    replayGo (fuel + 1) rest pos st = .error .serdeError := by
  obtain ⟨hb, hp1, hp2, hlen2, hlen1, hbound⟩ := readEntryParts_isOk_bounds rest 0 _ hread
  dsimp only at hp1 hp2 hlen2 hlen1 hbound
  rw [List.drop_zero] at hp1 hp2 hlen2
  have hdl := List.length_drop 4 rest
  have hne : rest.isEmpty = false := by
    cases rest with
    | nil => simp at hb
    | cons a l => rfl
  simp only [replayGo, hne, Bool.false_eq_true, if_false]
  rw [if_neg (by omega : ¬ rest.length < 4)]
  rw [← hlen2] at hp2 ⊢
  rw [if_neg (by omega : ¬ (rest.drop 4).length < dataBuf.length)]
  rw [← hp2, hparse]

theorem openStore_error (file : List Nat) (e : RuskError)
    (h : replayLog file = .error e) : openStore file = .error e := by
  unfold openStore
  rw [h]

theorem replayLog_serde (file : List Nat) (lenBuf dataBuf : List Nat)
    (hread : readEntryParts file 0 = .ok (lenBuf, dataBuf))
    (hparse : parseCommand dataBuf = none) :
    replayLog file = .error .serdeError := by
  unfold replayLog
  rw [replayGo_head_serde file.length _ 0 _ _ _ hread hparse]

theorem big_open_serde :
    openStore ((runState store0 [Op.setOp "k" bigA]).file) = .error .serdeError := by
  rw [big_run_eq]
  show openStore (store0.file ++ frame (payloadBytes (.set "k" bigA))) = _
  have hread := readEntryParts_at_append store0.file (payloadBytes (.set "k" bigA))
  rw [bigA_payload_len, Nat.mod_self, List.take_zero] at hread
  have hlen0 : store0.file.length = 0 := rfl
  rw [hlen0] at hread
  exact openStore_error _ _ (replayLog_serde _ _ _ hread rfl)

/-! ### The claims -/

/-- Demo store used by several witnesses: a store holding one live key
`"a"` bound to `"1"`, with the log holding exactly that Set entry. -/
def demoStore : RuskStore :=
  RuskStore.mk (frame (payloadBytes (.set "a" "1"))) [("a", CommandPos.mk 0 35)] 35 0

/-- Claim C1, amended: for every store state satisfying the index invariant
and every key and value whose serialized Set payload fits the u32 length
header, set(k, v) succeeds, a subsequent get(k) returns v, and — when the
call does not trigger the implicit compaction — the log ends with the newly
appended Set entry.  (The original unrestricted claim fails: a payload of
2^32 bytes truncates the length header, see the counterexample; and when the
call triggers compaction the rewritten log need not end with that entry.) -/
theorem rusk_C1 (s : RuskStore) (k v : String) (h : StoreInv s)
    (hsm : SmallCmd (.set k v)) :
    (s.set k v).1 = .ok () ∧ (s.set k v).2.get k = .ok (some v) ∧
    (s.uncompacted + displacedLen s k ≤ COMPACTION_THRESHOLD →
      (s.set k v).2.file = s.file ++ frame (payloadBytes (.set k v))) := by
  have r := set_run s k v h
  refine ⟨r.1, get_after_set s k v h hsm, ?_⟩
  intro hle
  have hst := r.2.2.2.1 hle
  rw [hst]
  rfl

/-- Witness for C1 at a concrete store, key and value. -/
theorem rusk_C1_witness :
    StoreInv store0 ∧ SmallCmd (.set "a" "1") ∧
    ((store0.set "a" "1").1 = .ok () ∧
      (store0.set "a" "1").2.get "a" = .ok (some "1") ∧
      (store0.uncompacted + displacedLen store0 "a" ≤ COMPACTION_THRESHOLD →
        (store0.set "a" "1").2.file =
          store0.file ++ frame (payloadBytes (.set "a" "1")))) :=
  ⟨by decide, by decide, rusk_C1 store0 "a" "1" (by decide) (by decide)⟩

/-- A two-key store sitting exactly at the compaction threshold: the next
displacing set pushes `uncompacted` over 1 MiB and triggers compaction,
which rewrites the log in index-iteration order. -/
def triggerStore : RuskStore :=
  RuskStore.mk
    (frame (payloadBytes (.set "a" "1")) ++ frame (payloadBytes (.set "b" "2")))
    [("a", CommandPos.mk 0 35), ("b", CommandPos.mk 35 35)] 70 1048576

/-- Counterexample to C1 as stated, in both of its weakened conjuncts.
First: from the fresh store, set of key `"k"` and a value of 2^32 − 30 `a`
characters succeeds, but the following get fails with a serde error (the
`data.len() as u32` header truncates to 0), so get does not return the
written value.  Second: a small displacing set on `triggerStore` succeeds
and triggers compaction, which rewrites the log in index order — the
new Set entry for `"a"` is copied before the live entry for `"b"`, so the
log does not end with the newly appended entry. -/
theorem rusk_C1_cex :
    ((store0.set "k" bigA).1 = .ok () ∧
      (store0.set "k" bigA).2.get "k" = .error .serdeError ∧
      (store0.set "k" bigA).2.get "k" ≠ .ok (some bigA)) ∧
    (SmallCmd (.set "a" "x") ∧ StoreInv triggerStore ∧
      (triggerStore.set "a" "x").1 = .ok () ∧
      (frame (payloadBytes (.set "a" "x"))).isSuffixOf
        ((triggerStore.set "a" "x").2.file) = false) := by
  refine ⟨⟨?_, big_get_serde, ?_⟩, by decide⟩
  · rw [big_set_eq]
  · rw [big_get_serde]
    exact fun hh => Except.noConfusion hh

/-- Claim C2: after a successful remove(k) on a live key, get(k) reports the
key absent and an immediate second remove(k) fails with KeyNotFound; remove
of a key absent from the index fails with KeyNotFound and changes nothing
(in particular, no log write happens: the file and current_pos are those of
the unchanged store). -/
theorem rusk_C2 :
    (∀ (s : RuskStore) (k : String) (cp : CommandPos), StoreInv s →
      alookup s.index k = some cp →
      (s.remove k).1 = .ok () ∧ (s.remove k).2.get k = .ok none ∧
      ((s.remove k).2.remove k).1 = .error .keyNotFound) ∧
    (∀ (s : RuskStore) (k : String), alookup s.index k = none →
      s.remove k = (.error .keyNotFound, s)) := by
  constructor
  · intro s k cp h hk
    have hkne : (alookup s.index k).isNone = false := by rw [hk]; rfl
    have r := remove_run s k h hkne
    have hchunk : chunkAt (s.remove k).2 k = none := by
      rw [← r.2.2.1.2 k]
      exact chunkAt_removePre_self s k h.2.1
    have hlk : alookup (s.remove k).2.index k = none := (chunkAt_none_iff _ _).mp hchunk
    refine ⟨r.1, ?_, ?_⟩
    · rw [get_eq_match_chunk, hchunk]
    · rw [remove_missing _ _ (by rw [hlk]; rfl)]
  · intro s k hk
    exact remove_missing s k (by rw [hk]; rfl)

/-- Witness for C2 at a concrete one-key store. -/
theorem rusk_C2_witness :
    (StoreInv demoStore ∧ alookup demoStore.index "a" = some (CommandPos.mk 0 35) ∧
      ((demoStore.remove "a").1 = .ok () ∧
        (demoStore.remove "a").2.get "a" = .ok none ∧
        ((demoStore.remove "a").2.remove "a").1 = .error .keyNotFound)) ∧
    (alookup demoStore.index "b" = none ∧
      demoStore.remove "b" = (.error .keyNotFound, demoStore)) :=
  ⟨⟨by decide, by decide,
    rusk_C2.1 demoStore "a" (CommandPos.mk 0 35) (by decide) (by decide)⟩,
   ⟨by decide, rusk_C2.2 demoStore "b" (by decide)⟩⟩

/-- Claim C3, amended: for every sequence of operations from a fresh store
whose serialized payloads fit the u32 length header, reopening the store
from its log file succeeds and yields a store whose get agrees on every key
with the store before the reopen.  (The original claim fails for an
oversized payload: replay then hits the truncated header and open fails,
see the counterexample.) -/
theorem rusk_C3 (P : List Op) (hP : SmallOps P) :
    ∃ s2, openStore ((runState store0 P).file) = .ok s2 ∧
      ∀ k, s2.get k = (runState store0 P).get k := by
  obtain ⟨cs, hrep⟩ := logRep_runState P store0 [] logRep_store0 hP
  obtain ⟨hs, hf, hi, hpos⟩ := hrep
  obtain ⟨u, hopen⟩ := openStore_logBytes cs hs
  refine ⟨_, by rw [hf]; exact hopen, ?_⟩
  intro k
  apply get_congr_fi
  · show logBytes cs = (runState store0 P).file
    rw [hf]
  · show idxGo cs 0 [] = (runState store0 P).index
    rw [hi]

/-- Witness for C3 at a concrete one-operation program. -/
theorem rusk_C3_witness : SmallOps [Op.setOp "a" "1"] ∧
    ∃ s2, openStore ((runState store0 [Op.setOp "a" "1"]).file) = .ok s2 ∧
      ∀ k, s2.get k = (runState store0 [Op.setOp "a" "1"]).get k :=
  ⟨by decide, rusk_C3 [Op.setOp "a" "1"] (by decide)⟩

/-- Counterexample to C3 as stated: after the successful oversized set, the
log's first header reads 0, replay fails to decode the empty payload, and
reopening fails with a serde error instead of yielding a store. -/
theorem rusk_C3_cex :
    (store0.set "k" bigA).1 = .ok () ∧
    openStore ((runState store0 [Op.setOp "k" bigA]).file) = .error .serdeError :=
  ⟨by rw [big_set_eq], big_open_serde⟩

/-- Claim C4: for every sequence of operations from a fresh store and every
point in it, inserting a successful compact() at that point does not change
the result (value, absence, or error) of any subsequent get or remove call:
the trace of get/remove results of any continuation is unchanged. -/
theorem rusk_C4 (P Q : List Op) (s2 : RuskStore)
    (h : (runState store0 P).compact = .ok s2) :
    runObs s2 Q = runObs (runState store0 P) Q := by
  have hinv : StoreInv (runState store0 P) := storeInv_runState store0 P (by decide)
  obtain ⟨t, hc, hinvt, hobs, _, _⟩ := compact_main _ hinv
  rw [hc] at h
  simp only [Except.ok.injEq] at h
  subst h
  exact runObs_congr Q _ _ hinvt hinv (obsEq_symm hobs)

/-- Witness for C4 at a concrete program and continuation. -/
theorem rusk_C4_witness :
    ∃ s2, (runState store0 [Op.setOp "a" "1"]).compact = .ok s2 ∧
      runObs s2 [Op.getOp "a", Op.removeOp "b"] =
        runObs (runState store0 [Op.setOp "a" "1"]) [Op.getOp "a", Op.removeOp "b"] := by
  cases hc : (runState store0 [Op.setOp "a" "1"]).compact with
  | error e =>
    have hok : ((runState store0 [Op.setOp "a" "1"]).compact).isOk = true := by decide
    rw [hc] at hok
    exact Bool.noConfusion hok
  | ok s2 =>
    exact ⟨s2, rfl, rusk_C4 [Op.setOp "a" "1"] [Op.getOp "a", Op.removeOp "b"] s2 hc⟩

/-- Claim C5, amended: in every state reachable from a fresh store by
operations whose serialized payloads fit the u32 length header, every key in
the index points at an entry that decodes to a Set command for that same
key, and get on it does not fail (in particular never with
UnexpectedCommand).  (The original claim fails for an oversized payload,
whose entry no longer decodes, see the counterexample.) -/
theorem rusk_C5 (P : List Op) (hP : SmallOps P) (k : String) (cp : CommandPos)
    (hk : alookup (runState store0 P).index k = some cp) :
    (∃ v, decodeAt (runState store0 P).file cp.offset = some (.set k v)) ∧
    (runState store0 P).get k ≠ .error .unexpectedCommand := by
  obtain ⟨cs, hrep⟩ := logRep_runState P store0 [] logRep_store0 hP
  obtain ⟨hs, hf, hi, hpos⟩ := hrep
  rw [hi] at hk
  have hmem := alookup_mem _ _ _ hk
  obtain ⟨v, hsm, hlen, hread⟩ := idx_sound cs hs (k, cp) hmem
  dsimp only at hread
  constructor
  · refine ⟨v, ?_⟩
    unfold decodeAt
    rw [hf, hread]
    exact parseCommand_round _
  · have hchunk : chunkAt (runState store0 P) k =
        some (.ok (be32 (payloadBytes (.set k v)).length, payloadBytes (.set k v))) := by
      unfold chunkAt
      rw [hi, hk]
      simp only [Option.map_some']
      rw [hf, hread]
    rw [get_eq_match_chunk, hchunk]
    simp only [parseCommand_round (.set k v)]
    simp

/-- Witness for C5 at a concrete program and key. -/
theorem rusk_C5_witness :
    SmallOps [Op.setOp "a" "1"] ∧
    alookup (runState store0 [Op.setOp "a" "1"]).index "a" = some (CommandPos.mk 0 35) ∧
    ((∃ v, decodeAt (runState store0 [Op.setOp "a" "1"]).file
        (CommandPos.mk 0 35).offset = some (.set "a" v)) ∧
      (runState store0 [Op.setOp "a" "1"]).get "a" ≠ .error .unexpectedCommand) :=
  ⟨by decide, by decide,
    rusk_C5 [Op.setOp "a" "1"] (by decide) "a" (CommandPos.mk 0 35) (by decide)⟩

/-- Counterexample to C5 as stated: a single oversized set produces a
reachable state whose index entry for the key does not decode to a Set
command (the truncated header makes the payload read back empty). -/
theorem rusk_C5_cex :
    alookup (runState store0 [Op.setOp "k" bigA]).index "k" =
      some (CommandPos.mk 0 4294967300) ∧
    decodeAt (runState store0 [Op.setOp "k" bigA]).file
      (CommandPos.mk 0 4294967300).offset = none :=
  ⟨big_lookup, big_decode_none⟩

/-- Claim C6: a set or remove whose post-append uncompacted counter exceeds
the 1 MiB threshold performs compaction before returning (the result is the
successful compaction of the post-append state, with uncompacted reset to
0); a write that stays at or below the threshold leaves the state exactly
the post-append state (no compaction); and every successful compaction
leaves uncompacted equal to 0. -/
theorem rusk_C6 :
    (∀ (s : RuskStore) (k v : String), StoreInv s →
      ((setPre s k v).uncompacted > COMPACTION_THRESHOLD →
        (s.set k v).1 = .ok () ∧ (setPre s k v).compact = .ok (s.set k v).2 ∧
        (s.set k v).2.uncompacted = 0) ∧
      ((setPre s k v).uncompacted ≤ COMPACTION_THRESHOLD →
        (s.set k v).1 = .ok () ∧ (s.set k v).2 = setPre s k v)) ∧
    (∀ (s : RuskStore) (k : String), StoreInv s →
      (alookup s.index k).isNone = false →
      ((removePre s k).uncompacted > COMPACTION_THRESHOLD →
        (s.remove k).1 = .ok () ∧ (removePre s k).compact = .ok (s.remove k).2 ∧
        (s.remove k).2.uncompacted = 0) ∧
      ((removePre s k).uncompacted ≤ COMPACTION_THRESHOLD →
        (s.remove k).1 = .ok () ∧ (s.remove k).2 = removePre s k)) ∧
    (∀ (s t : RuskStore), s.compact = .ok t → t.uncompacted = 0) := by
  refine ⟨?_, ?_, ?_⟩
  · intro s k v h
    have r := set_run s k v h
    exact ⟨fun hgt => ⟨r.1, (r.2.2.2.2 hgt).1, (r.2.2.2.2 hgt).2⟩,
      fun hle => ⟨r.1, r.2.2.2.1 hle⟩⟩
  · intro s k h hk
    have r := remove_run s k h hk
    exact ⟨fun hgt => ⟨r.1, (r.2.2.2.2 hgt).1, (r.2.2.2.2 hgt).2⟩,
      fun hle => ⟨r.1, r.2.2.2.1 hle⟩⟩
  · intro s t hc
    unfold RuskStore.compact at hc
    cases hcg : compactGo s.file s.index [] [] 0 with
    | error e => rw [hcg] at hc; cases hc
    | ok tr =>
      obtain ⟨nf, ni, np⟩ := tr
      rw [hcg] at hc
      simp only [Except.ok.injEq] at hc
      rw [← hc]

/-- Witness for C6: a store sitting exactly at the threshold, pushed over it
by a displacing set, which therefore compacts down to zero. -/
theorem rusk_C6_witness :
    StoreInv (RuskStore.mk (frame (payloadBytes (.set "a" "1")))
      [("a", CommandPos.mk 0 35)] 35 1048576) ∧
    (setPre (RuskStore.mk (frame (payloadBytes (.set "a" "1")))
      [("a", CommandPos.mk 0 35)] 35 1048576) "a" "x").uncompacted >
        COMPACTION_THRESHOLD ∧
    ((RuskStore.mk (frame (payloadBytes (.set "a" "1")))
        [("a", CommandPos.mk 0 35)] 35 1048576).set "a" "x").2.uncompacted = 0 :=
  ⟨by decide, by decide,
    ((rusk_C6.1 (RuskStore.mk (frame (payloadBytes (.set "a" "1")))
      [("a", CommandPos.mk 0 35)] 35 1048576) "a" "x" (by decide)).1 (by decide)).2.2⟩

/-- Claim C7: in replay, a Remove entry for a key with no live binding adds
exactly its own entry length to uncompacted; a Remove clears the
previous-positions marker for its key, so a later Set for that key adds
nothing when no predecessor Set is recorded, and adds exactly the recorded
predecessor's length when one is — never the Remove's length again. -/
theorem rusk_C7 (st : ReplayState) (k v : String) (pos l m : Nat)
    (hnd : (st.previous.map Prod.fst).Nodup) :
    (alookup st.index k = none →
      (replayStep (.remove k) pos l st).uncompacted = st.uncompacted + l) ∧
    alookup (replayStep (.remove k) pos l st).previous k = none ∧
    (alookup st.previous k = none →
      (replayStep (.set k v) pos l st).uncompacted = st.uncompacted) ∧
    (alookup st.previous k = some m →
      (replayStep (.set k v) pos l st).uncompacted = st.uncompacted + m) := by
  refine ⟨?_, ?_, ?_, ?_⟩
  · intro h
    simp [replayStep, h]
  · show alookup (aerase st.previous k) k = none
    exact alookup_aerase_self _ _ hnd
  · intro h
    simp [replayStep, h]
  · intro h
    simp [replayStep, h]

/-- Witness for C7 at a concrete replay state. -/
theorem rusk_C7_witness :
    ((ReplayState.mk [("a", CommandPos.mk 0 10)] [("a", 10)] 5).previous.map
        Prod.fst).Nodup ∧
    ((alookup (ReplayState.mk [("a", CommandPos.mk 0 10)] [("a", 10)] 5).index "b" = none →
      (replayStep (.remove "b") 7 9
        (ReplayState.mk [("a", CommandPos.mk 0 10)] [("a", 10)] 5)).uncompacted =
        (ReplayState.mk [("a", CommandPos.mk 0 10)] [("a", 10)] 5).uncompacted + 9) ∧
    alookup (replayStep (.remove "b") 7 9
      (ReplayState.mk [("a", CommandPos.mk 0 10)] [("a", 10)] 5)).previous "b" = none ∧
    (alookup (ReplayState.mk [("a", CommandPos.mk 0 10)] [("a", 10)] 5).previous "b" = none →
      (replayStep (.set "b" "z") 7 9
        (ReplayState.mk [("a", CommandPos.mk 0 10)] [("a", 10)] 5)).uncompacted =
        (ReplayState.mk [("a", CommandPos.mk 0 10)] [("a", 10)] 5).uncompacted) ∧
    (alookup (ReplayState.mk [("a", CommandPos.mk 0 10)] [("a", 10)] 5).previous "b" = some 10 →
      (replayStep (.set "b" "z") 7 9
        (ReplayState.mk [("a", CommandPos.mk 0 10)] [("a", 10)] 5)).uncompacted =
        (ReplayState.mk [("a", CommandPos.mk 0 10)] [("a", 10)] 5).uncompacted + 10)) :=
  ⟨by decide, rusk_C7 (ReplayState.mk [("a", CommandPos.mk 0 10)] [("a", 10)] 5)
    "b" "z" 7 9 10 (by decide)⟩

/-- Claim C8, amended: after every run of public operations from a fresh
store, current_pos equals the byte length of the log; an open that succeeds
on an arbitrary file leaves current_pos at most the file length (it stops at
the last well-formed boundary); and opening the log of any small-payload run
succeeds with current_pos equal to the file length.  (The original claim's
"equals, including after an open whose replay stopped early at a premature
EOF in the length header" is false: such an open leaves current_pos strictly
below the on-disk length, see the counterexample.) -/
theorem rusk_C8 :
    (∀ P : List Op, (runState store0 P).current_pos = (runState store0 P).file.length) ∧
    (∀ (f : List Nat) (s : RuskStore), openStore f = .ok s →
      s.file = f ∧ s.current_pos ≤ f.length) ∧
    (∀ P : List Op, SmallOps P → ∃ s2, openStore ((runState store0 P).file) = .ok s2 ∧
      s2.current_pos = s2.file.length) := by
  refine ⟨?_, ?_, ?_⟩
  · intro P
    exact (storeInv_runState store0 P (by decide)).1
  · intro f s h
    have hb := openStore_pos_le f s h
    exact ⟨hb.2, hb.1⟩
  · intro P hP
    obtain ⟨cs, hs, hf, hi, hpos⟩ := logRep_runState P store0 [] logRep_store0 hP
    obtain ⟨u, hopen⟩ := openStore_logBytes cs hs
    exact ⟨_, by rw [hf]; exact hopen, rfl⟩

/-- Witness for C8 at concrete instances of its conditional conjuncts. -/
theorem rusk_C8_witness :
    (openStore [] = .ok store0 ∧ store0.file = ([] : List Nat) ∧
      store0.current_pos ≤ ([] : List Nat).length) ∧
    (SmallOps [Op.setOp "a" "1"] ∧
      ∃ s2, openStore ((runState store0 [Op.setOp "a" "1"]).file) = .ok s2 ∧
        s2.current_pos = s2.file.length) :=
  ⟨⟨by decide, rusk_C8.2.1 [] store0 (by decide)⟩,
   ⟨by decide, rusk_C8.2.2 [Op.setOp "a" "1"] (by decide)⟩⟩

/-- Counterexample to C8 as stated: opening a log consisting of the single
byte 0 succeeds (the header read hits EOF and replay breaks cleanly), but
current_pos is 0 while the file on disk is 1 byte long. -/
theorem rusk_C8_cex :
    openStore [0] = .ok (RuskStore.mk [0] [] 0 0) ∧
    (RuskStore.mk [0] [] 0 0).current_pos ≠ ([0] : List Nat).length := by decide

/-- Claim C9, amended: an error arising from the append itself (the
write_all/flush in write_command) or from remove's missing-key check leaves
the in-memory state for the key unchanged — the index binding, current_pos
and uncompacted are untouched.  (The original claim covering every error is
false: when the error comes from the implicit compaction after a successful
append, the new binding and counters remain, see the counterexample.) -/
theorem rusk_C9 :
    (∀ (s : RuskStore) (k v : String) (junk : List Nat),
      (s.setF k v false junk).1 = .error .ioError ∧
      (s.setF k v false junk).2.index = s.index ∧
      (s.setF k v false junk).2.current_pos = s.current_pos ∧
      (s.setF k v false junk).2.uncompacted = s.uncompacted) ∧
    (∀ (s : RuskStore) (k : String) (junk : List Nat),
      (alookup s.index k).isNone = false →
      (s.removeF k false junk).1 = .error .ioError ∧
      (s.removeF k false junk).2.index = s.index ∧
      (s.removeF k false junk).2.current_pos = s.current_pos ∧
      (s.removeF k false junk).2.uncompacted = s.uncompacted) ∧
    (∀ (s : RuskStore) (k : String), alookup s.index k = none →
      s.remove k = (.error .keyNotFound, s)) := by
  refine ⟨?_, ?_, ?_⟩
  · intro s k v junk
    exact ⟨rfl, rfl, rfl, rfl⟩
  · intro s k junk h
    unfold RuskStore.removeF
    rw [h]
    exact ⟨rfl, rfl, rfl, rfl⟩
  · intro s k h
    exact remove_missing s k (by rw [h]; rfl)

/-- Witness for C9 at a concrete store. -/
theorem rusk_C9_witness :
    ((demoStore.setF "a" "x" false [7]).1 = .error .ioError ∧
      (demoStore.setF "a" "x" false [7]).2.index = demoStore.index ∧
      (demoStore.setF "a" "x" false [7]).2.current_pos = demoStore.current_pos ∧
      (demoStore.setF "a" "x" false [7]).2.uncompacted = demoStore.uncompacted) ∧
    ((alookup demoStore.index "a").isNone = false ∧
      ((demoStore.removeF "a" false [7]).1 = .error .ioError ∧
        (demoStore.removeF "a" false [7]).2.index = demoStore.index ∧
        (demoStore.removeF "a" false [7]).2.current_pos = demoStore.current_pos ∧
        (demoStore.removeF "a" false [7]).2.uncompacted = demoStore.uncompacted)) ∧
    (alookup demoStore.index "b" = none ∧
      demoStore.remove "b" = (.error .keyNotFound, demoStore)) :=
  ⟨rusk_C9.1 demoStore "a" "x" [7],
   ⟨by decide, rusk_C9.2.1 demoStore "a" [7] (by decide)⟩,
   ⟨by decide, rusk_C9.2.2 demoStore "b" (by decide)⟩⟩

/-- Counterexample to C9 as stated: from a store whose uncompacted counter
sits at the threshold and whose index holds a dangling second entry, a set
appends successfully, updates the binding, then triggers compaction which
fails with an I/O error reading the dangling entry — the call returns an
error, yet the key's binding, current_pos and uncompacted all changed. -/
theorem rusk_C9_cex :
    ((RuskStore.mk [] [("k", CommandPos.mk 0 1), ("k2", CommandPos.mk 100 9)] 0
        1048576).set "k" "x").1 = .error .ioError ∧
    alookup ((RuskStore.mk [] [("k", CommandPos.mk 0 1), ("k2", CommandPos.mk 100 9)] 0
        1048576).set "k" "x").2.index "k" ≠
      alookup (RuskStore.mk [] [("k", CommandPos.mk 0 1), ("k2", CommandPos.mk 100 9)] 0
        1048576).index "k" ∧
    ((RuskStore.mk [] [("k", CommandPos.mk 0 1), ("k2", CommandPos.mk 100 9)] 0
        1048576).set "k" "x").2.current_pos ≠
      (RuskStore.mk [] [("k", CommandPos.mk 0 1), ("k2", CommandPos.mk 100 9)] 0
        1048576).current_pos ∧
    ((RuskStore.mk [] [("k", CommandPos.mk 0 1), ("k2", CommandPos.mk 100 9)] 0
        1048576).set "k" "x").2.uncompacted ≠
      (RuskStore.mk [] [("k", CommandPos.mk 0 1), ("k2", CommandPos.mk 100 9)] 0
        1048576).uncompacted := by decide

/-- Claim C10: the empty string is a valid key and value — from every
invariant-satisfying state, set("", "") succeeds, get("") then returns
Some "", and remove("") then succeeds. -/
theorem rusk_C10 (s : RuskStore) (h : StoreInv s) :
    (s.set "" "").1 = .ok () ∧ (s.set "" "").2.get "" = .ok (some "") ∧
    ((s.set "" "").2.remove "").1 = .ok () := by
  have hsm : SmallCmd (.set "" "") := by decide
  have r := set_run s "" "" h
  refine ⟨r.1, get_after_set s "" "" h hsm, ?_⟩
  have hchunk : chunkAt (s.set "" "").2 "" =
      some (.ok (be32 (payloadBytes (.set "" "")).length, payloadBytes (.set "" ""))) := by
    rw [← r.2.2.1.2 ""]
    exact chunkAt_setPre_self_small s "" "" h.1 hsm
  have hkne := chunkAt_isSome_lookup _ "" _ hchunk
  exact (remove_run _ "" r.2.1 hkne).1

/-- Witness for C10 at the fresh store. -/
theorem rusk_C10_witness :
    StoreInv store0 ∧
    ((store0.set "" "").1 = .ok () ∧ (store0.set "" "").2.get "" = .ok (some "") ∧
      ((store0.set "" "").2.remove "").1 = .ok ()) :=
  ⟨by decide, rusk_C10 store0 (by decide)⟩
